import Mathlib

/-!
Verification development for the better-memory-mcp knowledge-graph server
(`src/index.ts`).  The TypeScript source is shallowly embedded: JS strings
become `List Char`, the in-memory graph becomes a `Graph` structure, and each
method of `KnowledgeGraphManager` becomes an executable Lean function that
follows the source line by line.  Claims from the specification are then
proved or refuted about these definitions.
-/

namespace BetterMemory

/-- JS strings are modelled as lists of characters. -/
abbrev Str := List Char

/-- `String.prototype.toLowerCase`, modelled characterwise. -/
def toLowerStr (s : Str) : Str := s.map Char.toLower

/-- Whitespace class of the JS regex `\s` (the ASCII part actually exercised
by the source: space, tab, line feed, carriage return, vertical tab, form
feed). -/
def isWS (c : Char) : Bool :=
  c == ' ' || c == '\t' || c == '\n' || c == '\r' || c == '\x0b' || c == '\x0c'

/-- `text.split(/\s+/).filter(t => t.length > 0)`: whitespace-separated
tokens, empties dropped. -/
def splitWS (s : Str) : List Str :=
  (s.splitOnP isWS).filter (fun t => !t.isEmpty)

/-- `String.prototype.trim` (both-ends whitespace strip), used by the source
as `query.trim()`. -/
def trimWS (s : Str) : Str :=
  ((s.dropWhile isWS).reverse.dropWhile isWS).reverse

/-- `hay.startsWith(pre)` / prefix test, written out so the development does
not depend on library Boolean-prefix functions. -/
def startsWithStr (hay pre : Str) : Bool :=
  match pre, hay with
  | [], _ => true
  | _ :: _, [] => false
  | p :: ps, h :: hs => p == h && startsWithStr hs ps

/-- `hay.includes(needle)`: substring containment test. -/
def strIncludes (hay needle : Str) : Bool :=
  match hay with
  | [] => needle.isEmpty
  | _ :: t => startsWithStr hay needle || strIncludes t needle

/-- Declarative substring containment, used to state claims about
`strIncludes`. -/
def ContainsStr (hay needle : Str) : Prop :=
  ∃ pre post, hay = pre ++ needle ++ post

/-- `private tokenize(text)`: lowercase then split on whitespace. -/
def tokenize (text : Str) : List Str :=
  splitWS (toLowerStr text)

-- ==================== Data model ====================

/-- An entity record (`interface Entity`). -/
structure Entity where
  name : Str
  entityType : Str
  observations : List Str
deriving DecidableEq

/-- A relation record (`interface Relation`). -/
structure Relation where
  from_ : Str
  to_ : Str
  relationType : Str
deriving DecidableEq

/-- The in-memory knowledge graph (`interface KnowledgeGraph`). -/
structure Graph where
  entities : List Entity
  relations : List Relation
deriving DecidableEq

/-- Parsed boolean query (`interface ParsedQuery`). -/
structure ParsedQuery where
  required : List Str
  optional : List Str
  excluded : List Str
  phrases : List Str
deriving DecidableEq

-- ==================== Query parser ====================

/-- The quoted-phrase contents matched by the loop
`while ((phraseMatch = /"([^"]+)"/g.exec(query)) !== null)`, in match order.
A match needs an opening quote, at least one non-quote character, and a
closing quote; after a failed start position the engine retries at the next
position, so an empty pair `""` leaves its first quote behind and retries at
the second. -/
def phraseScanAux : Nat → Str → List Str
  | 0, _ => []
  | fuel + 1, s =>
    match s.dropWhile (fun c => c != '"') with
    | [] => []
    | _ :: afterQ =>
      let content := afterQ.takeWhile (fun c => c != '"')
      match afterQ.dropWhile (fun c => c != '"') with
      | [] => []
      | _ :: afterClose =>
        if content.isEmpty then phraseScanAux fuel afterQ
        else content :: phraseScanAux fuel afterClose

/-- Entry point of the phrase scanner.  Every recursive step of
`phraseScanAux` continues on a strictly shorter string (`afterQ` and
`afterClose` both sit strictly inside `s`), so fuel equal to the string
length never runs out; it only makes the recursion structural so that
concrete inputs evaluate by `rfl`. -/
def phraseScan (s : Str) : List Str := phraseScanAux s.length s

def replaceFirstAux : Nat → Str → Str → Str → Str
  | 0, s, _, _ => s
  | fuel + 1, s, pat, rep =>
    if startsWithStr s pat then rep ++ s.drop pat.length
    else
      match s with
      | [] => []
      | c :: rest => c :: replaceFirstAux fuel rest pat rep

/-- `s.replace(pat, rep)` for a plain-string pattern: replace the first
occurrence only (the source only calls this with non-empty patterns that do
occur).  Each recursive step consumes one character, so fuel equal to the
string length always suffices. -/
def replaceFirst (s pat rep : Str) : Str := replaceFirstAux s.length s pat rep

/-- One iteration of the token-classification loop inside `parseQuery`:
`+term` (length > 1) goes to `required`, `-term` (length > 1) to `excluded`,
tokens starting with neither sign to `optional`; a bare `+` or `-` matches
none of the three branches and is dropped. -/
def classifyToken (r : ParsedQuery) (t : Str) : ParsedQuery :=
  if startsWithStr t ['+'] && decide (t.length > 1) then
    { r with required := r.required ++ [toLowerStr (t.drop 1)] }
  else if startsWithStr t ['-'] && decide (t.length > 1) then
    { r with excluded := r.excluded ++ [toLowerStr (t.drop 1)] }
  else if !startsWithStr t ['+'] && !startsWithStr t ['-'] then
    { r with optional := r.optional ++ [toLowerStr t] }
  else r

/-- The working string `remainingQuery` of `parseQuery` after the quoted
phrases have been removed: each phrase match is replaced by a single space,
first occurrence first. -/
def phraseStripped (query : Str) : Str :=
  (phraseScan query).foldl
    (fun acc c => replaceFirst acc ('"' :: c ++ ['"']) [' ']) query

/-- `private parseQuery(query)`: extract quoted phrases, then classify the
whitespace-separated tokens of the phrase-stripped working string. -/
def parseQuery (query : Str) : ParsedQuery :=
  (splitWS (phraseStripped query)).foldl classifyToken
    { required := [], optional := [], excluded := [],
      phrases := (phraseScan query).map toLowerStr }

-- ==================== Matcher ====================

/-- `private matchesParsedQuery(text, parsed)`. -/
def matchesParsedQuery (text : Str) (parsed : ParsedQuery) : Bool :=
  let lowerText := toLowerStr text
  if decide (parsed.required.length > 0) &&
      parsed.required.any (fun t => !strIncludes lowerText t) then false
  else if parsed.excluded.any (fun t => strIncludes lowerText t) then false
  else if parsed.phrases.any (fun p => !strIncludes lowerText p) then false
  else if decide (parsed.optional.length > 0) &&
      decide (parsed.required.length = 0) && decide (parsed.phrases.length = 0) &&
      !parsed.optional.any (fun t => strIncludes lowerText t) then false
  else true

-- ==================== Fuzzy matching and scoring ====================

/-- Inner loop of the Levenshtein dynamic program: given the previous matrix
row (its first cell already consumed as `diag`) and the cell to the left,
produce the rest of the current row, cell by cell, exactly as
`matrix[i][j] = min(matrix[i-1][j]+1, matrix[i][j-1]+1, matrix[i-1][j-1]+cost)`. -/
def levRowAux (ca : Char) : Nat → Nat → List Nat → Str → List Nat
  | _, _, _, [] => []
  | _, _, [], _ :: _ => []
  | diag, left, pj :: prest, cb :: brest =>
    let cost := if ca == cb then 0 else 1
    let here := min (min (pj + 1) (left + 1)) (diag + cost)
    here :: levRowAux ca pj here prest brest

/-- `private levenshteinDistance(a, b)`: the standard O(n*m) edit-distance
table, computed row by row (`matrix[i]` depends only on `matrix[i-1]`);
the result is `matrix[a.length][b.length]`. -/
def levenshteinDistance (a b : Str) : Nat :=
  let row0 := List.range (b.length + 1)
  let final := a.foldl
    (fun (st : Nat × List Nat) ca =>
      let i := st.1 + 1
      match st.2 with
      | diag :: rest => (i, i :: levRowAux ca diag i rest b)
      | [] => (i, []))
    (0, row0)
  (final.2.getLast?).getD 0

/-- `private fuzzyMatch(text, query, maxDistance?)`. -/
def fuzzyMatch (text query : Str) (maxDistance : Option Nat := none) : Bool :=
  let words := splitWS (toLowerStr text)
  let queryLower := toLowerStr query
  let distance := maxDistance.getD (max 1 (queryLower.length / 4))
  words.any fun word =>
    if strIncludes word queryLower || strIncludes queryLower word then true
    else if ((word.length : Int) - (queryLower.length : Int)).natAbs ≤ distance then
      levenshteinDistance word queryLower ≤ distance
    else false

/-- Name block of `private scoreEntity` (the first else-if chain): +100 exact,
+50 query-substring, +30 token, +15 fuzzy, else 0. -/
def scoreEntityName (entity : Entity) (queryLower : Str) (tokens : List Str)
    (query : Str) (fuzzy : Bool) : Nat :=
  let nameLower := toLowerStr entity.name
  if nameLower == queryLower then 100
  else if strIncludes nameLower queryLower then 50
  else if tokens.any (fun t => strIncludes nameLower t) then 30
  else if fuzzy && fuzzyMatch entity.name query then 15
  else 0

/-- Type block of `private scoreEntity`: +40 exact, +20 token, else 0. -/
def scoreEntityType (entity : Entity) (queryLower : Str) (tokens : List Str) : Nat :=
  let typeLower := toLowerStr entity.entityType
  if typeLower == queryLower then 40
  else if tokens.any (fun t => strIncludes typeLower t) then 20
  else 0

/-- Per-observation contribution of `private scoreEntity`: +15 full query,
+10 token, +5 fuzzy, else 0. -/
def scoreEntityObs (obs : Str) (queryLower : Str) (tokens : List Str)
    (query : Str) (fuzzy : Bool) : Nat :=
  let obsLower := toLowerStr obs
  if strIncludes obsLower queryLower then 15
  else if tokens.any (fun t => strIncludes obsLower t) then 10
  else if fuzzy && fuzzyMatch obs query then 5
  else 0

/-- `private scoreEntity(entity, query, fuzzy)`: the running `score` is the
sum of the name block, the type block, and the per-observation
contributions (cumulative over observations). -/
def scoreEntity (entity : Entity) (query : Str) (fuzzy : Bool) : Nat :=
  let queryLower := toLowerStr query
  let tokens := tokenize query
  scoreEntityName entity queryLower tokens query fuzzy +
    scoreEntityType entity queryLower tokens +
    (entity.observations.map
      (fun obs => scoreEntityObs obs queryLower tokens query fuzzy)).sum

-- ==================== Field queries ====================

/-- Field-specific query structure (`interface FieldQuery`). -/
structure FieldQuery where
  name : Option ParsedQuery
  type : Option ParsedQuery
  obs : Option ParsedQuery
  all : Option ParsedQuery
deriving DecidableEq

/-- Which of the three field keywords matched. -/
inductive FieldTag where
  | fname
  | ftype
  | fobs
deriving DecidableEq

/-- Case-insensitive keyword test at the head of `s` for the alternation
`(name|type|obs):` of the field regex; returns the tag and keyword length
(colon included). -/
def kwAt (s : Str) : Option (FieldTag × Nat) :=
  if startsWithStr (toLowerStr (s.take 5)) ("name:".toList) then some (.fname, 5)
  else if startsWithStr (toLowerStr (s.take 5)) ("type:".toList) then some (.ftype, 5)
  else if startsWithStr (toLowerStr (s.take 4)) ("obs:".toList) then some (.fobs, 4)
  else none

/-- The quoted alternative `"([^"]+)"` of the field-value pattern at the head
of `s`: an opening quote, at least one non-quote character, a closing quote.
Returns the captured content and the number of characters consumed. -/
def quotedValueAt (s : Str) : Option (Str × Nat) :=
  match s with
  | '"' :: rest =>
    let content := rest.takeWhile (fun c => c != '"')
    if content.isEmpty then none
    else
      match rest.drop content.length with
      | '"' :: _ => some (content, content.length + 2)
      | _ => none
  | _ => none

/-- The bare alternative `(\S+)`: a maximal non-empty run of
non-whitespace characters. -/
def bareValueAt (s : Str) : Option (Str × Nat) :=
  let v := s.takeWhile (fun c => !isWS c)
  if v.isEmpty then none else some (v, v.length)

/-- The field-value alternation: the quoted alternative is tried first, then
the bare one, matching the regex alternation order. -/
def valueAt (s : Str) : Option (Str × Nat) :=
  (quotedValueAt s).orElse (fun _ => bareValueAt s)

/-- A whole `field:value` match starting exactly at the head of `s`; returns
the tag, the captured value, the full matched text (`match[0]`), and the
rest of the string after the match. -/
def tryFieldAt (s : Str) : Option (FieldTag × Str × Str × Str) :=
  match kwAt s with
  | none => none
  | some (tag, klen) =>
    match valueAt (s.drop klen) with
    | none => none
    | some (v, vlen) => some (tag, v, s.take (klen + vlen), s.drop (klen + vlen))

/-- The global exec loop of the field regex: scan left to right; at a match
record it and resume after the matched text, otherwise advance one
character.  Every step consumes at least one character, so fuel equal to the
string length is always sufficient. -/
def scanFields : Nat → Str → List (FieldTag × Str × Str)
  | 0, _ => []
  | _, [] => []
  | fuel + 1, c :: rest =>
    match tryFieldAt (c :: rest) with
    | some (tag, v, full, after) => (tag, v, full) :: scanFields fuel after
    | none => scanFields fuel rest

/-- `private parseFieldQuery(query)`: assign each `field:value` match into
its slot (a later match for the same field overwrites the earlier one, as
the JS assignment does), remove every matched text from the working copy
(first occurrence first), and parse whatever remains, if non-blank, into the
`all` slot. -/
def parseFieldQuery (query : Str) : FieldQuery :=
  let ms := scanFields query.length query
  let fq : FieldQuery := ms.foldl
    (fun fq m =>
      match m.1 with
      | .fname => { fq with name := some (parseQuery m.2.1) }
      | .ftype => { fq with type := some (parseQuery m.2.1) }
      | .fobs => { fq with obs := some (parseQuery m.2.1) })
    ⟨none, none, none, none⟩
  let remaining := ms.foldl (fun acc m => replaceFirst acc m.2.2 [' ']) query
  let remaining := trimWS remaining
  if remaining.isEmpty then fq else { fq with all := some (parseQuery remaining) }

/-- `observations.join(' ')`. -/
def joinSpace (l : List Str) : Str := List.intercalate [' '] l

/-- `private entityMatchesFieldQuery(entity, fieldQuery)`. -/
def entityMatchesFieldQuery (entity : Entity) (fq : FieldQuery) : Bool :=
  (match fq.name with
   | some p => matchesParsedQuery entity.name p
   | none => true) &&
  (match fq.type with
   | some p => matchesParsedQuery entity.entityType p
   | none => true) &&
  (match fq.obs with
   | some p => matchesParsedQuery (joinSpace entity.observations) p
   | none => true) &&
  (match fq.all with
   | some p =>
     matchesParsedQuery
       (entity.name ++ [' '] ++ entity.entityType ++ [' '] ++
         joinSpace entity.observations) p
   | none => true)

-- ==================== Graph store (CRUD) ====================

/-- `createEntities`: drop the incoming entities whose name already exists in
the store, append the rest, return them. -/
def createEntities (g : Graph) (entities : List Entity) : Graph × List Entity :=
  let newEntities :=
    entities.filter (fun e => !g.entities.any (fun ex => ex.name == e.name))
  ({ g with entities := g.entities ++ newEntities }, newEntities)

/-- `createRelations`: drop relations whose (from, to, relationType) triple
already exists, append the rest, return them. -/
def createRelations (g : Graph) (relations : List Relation) : Graph × List Relation :=
  let newRelations := relations.filter (fun r =>
    !g.relations.any (fun ex =>
      ex.from_ == r.from_ && ex.to_ == r.to_ && ex.relationType == r.relationType))
  ({ g with relations := g.relations ++ newRelations }, newRelations)

/-- One request of `addObservations`. -/
structure ObsRequest where
  entityName : Str
  contents : List Str
deriving DecidableEq

/-- One result item of `addObservations`. -/
structure ObsResult where
  entityName : Str
  addedObservations : List Str
deriving DecidableEq

/-- Replace the first entity with the given name (the object that
`entities.find(...)` returns and the source then mutates in place). -/
def updateFirst (es : List Entity) (nm : Str) (f : Entity → Entity) : List Entity :=
  match es with
  | [] => []
  | e :: rest => if e.name == nm then f e :: rest else e :: updateFirst rest nm f

/-- One iteration of the `observations.map(...)` body in `addObservations`:
look the entity up by name, throw `Entity with name ... not found` if absent,
otherwise append the contents not already present and report them. -/
def addObsOne (entities : List Entity) (o : ObsRequest) :
    Except Str (List Entity × List Str) :=
  match entities.find? (fun e => e.name == o.entityName) with
  | none => .error ("Entity with name ".toList ++ o.entityName ++ " not found".toList)
  | some e =>
    let newObservations :=
      o.contents.filter (fun content => !e.observations.contains content)
    .ok (updateFirst entities o.entityName
          (fun e => { e with observations := e.observations ++ newObservations }),
        newObservations)

/-- The sequential `observations.map(...)` loop: the in-memory entity list is
mutated request by request; the first missing entity throws and aborts. -/
def addObsLoop (entities : List Entity) :
    List ObsRequest → Except Str (List Entity × List ObsResult)
  | [] => .ok (entities, [])
  | o :: rest =>
    match addObsOne entities o with
    | .error e => .error e
    | .ok (entities2, added) =>
      match addObsLoop entities2 rest with
      | .error e => .error e
      | .ok (fin, results) => .ok (fin, ⟨o.entityName, added⟩ :: results)

/-- `addObservations(observations)`: on success the mutated graph is saved
and the per-entity added observations are returned; a missing entity throws
before `saveGraph` runs, so the persisted graph is left exactly as loaded. -/
def addObservations (g : Graph) (observations : List ObsRequest) :
    Except Str (Graph × List ObsResult) :=
  match addObsLoop g.entities observations with
  | .error e => .error e
  | .ok (es, results) => .ok ({ g with entities := es }, results)

/-- The graph that is in storage after an `addObservations` call: the new
graph if the batch succeeded and `saveGraph` ran, the old graph if the
thrown `not found` error skipped the save. -/
def addObservationsPersisted (g : Graph) (observations : List ObsRequest) : Graph :=
  match addObservations g observations with
  | .ok (g2, _) => g2
  | .error _ => g

/-- `deleteEntities(entityNames)`: drop named entities and cascade to every
relation touching one of the names. -/
def deleteEntities (g : Graph) (entityNames : List Str) : Graph :=
  { entities := g.entities.filter (fun e => !entityNames.contains e.name),
    relations := g.relations.filter (fun r =>
      !entityNames.contains r.from_ && !entityNames.contains r.to_) }

/-- One deletion request of `deleteObservations`. -/
structure ObsDeletion where
  entityName : Str
  observations : List Str
deriving DecidableEq

/-- `deleteObservations(deletions)`: for each request, if the entity exists
remove the listed observation strings; missing entities are skipped. -/
def deleteObservations (g : Graph) (deletions : List ObsDeletion) : Graph :=
  { g with entities :=
      (deletions.foldl
        (fun es d => updateFirst es d.entityName
          (fun e => { e with observations :=
            e.observations.filter (fun o => !d.observations.contains o) }))
        g.entities) }

/-- `deleteRelations(relations)`: drop relations matching one of the given
exact triples. -/
def deleteRelations (g : Graph) (relations : List Relation) : Graph :=
  { g with relations := g.relations.filter (fun r =>
      !relations.any (fun d =>
        r.from_ == d.from_ && r.to_ == d.to_ && r.relationType == d.relationType)) }

/-- `openNodes(names)`: the named entities plus the relations strictly
between them. -/
def openNodes (g : Graph) (names : List Str) : Graph :=
  let filteredEntities := g.entities.filter (fun e => names.contains e.name)
  let filteredEntityNames := filteredEntities.map (fun e => e.name)
  { entities := filteredEntities,
    relations := g.relations.filter (fun r =>
      filteredEntityNames.contains r.from_ && filteredEntityNames.contains r.to_) }

-- ==================== Graph traversal ====================

/-- `new Map(graph.entities.map(e => [e.name, e])).get(n)`: the JS `Map`
constructor lets a later pair overwrite an earlier one with the same key, so
lookup returns the last entity bearing the name. -/
def mapGet (g : Graph) (n : Str) : Option Entity :=
  g.entities.reverse.find? (fun e => e.name == n)

/-- Fallback entity for the non-null assertion `entityMap.get(name)!` (never
taken on the paths the source exercises). -/
def defaultEntity : Entity := ⟨[], [], []⟩

/-- Direction option of `getNeighbors`. -/
inductive Direction where
  | incoming
  | outgoing
  | both
deriving DecidableEq

/-- Direction tag in a neighbor result. -/
inductive Dir where
  | incoming
  | outgoing
deriving DecidableEq

/-- One neighbor result (`interface NeighborResult`). -/
structure NeighborResult where
  entity : Entity
  relation : Relation
  direction : Dir
deriving DecidableEq

/-- `getNeighbors(entityName, {direction, relationType})`. -/
def getNeighbors (g : Graph) (entityName : Str) (direction : Direction := .both)
    (relationType : Option Str := none) : List NeighborResult :=
  if (mapGet g entityName).isNone then []
  else
    g.relations.foldl
      (fun results rel =>
        if (match relationType with
            | some rt => rel.relationType != rt
            | none => false) then results
        else
          let results :=
            if (direction == .both || direction == .outgoing) && rel.from_ == entityName then
              match mapGet g rel.to_ with
              | some te => results ++ [⟨te, rel, .outgoing⟩]
              | none => results
            else results
          if (direction == .both || direction == .incoming) && rel.to_ == entityName then
            match mapGet g rel.from_ with
            | some se => results ++ [⟨se, rel, .incoming⟩]
            | none => results
          else results)
      []

/-- The bidirectional adjacency list built at the top of `findPath`: the map
has one (initially empty) slot per existing entity, and each relation pushes
`{neighbor: to, relation}` onto the `from` slot and `{neighbor: from,
relation}` onto the `to` slot, skipping slots whose key is not an entity. -/
def adjacencyList (g : Graph) (a : Str) : List (Str × Relation) :=
  if g.entities.any (fun e => e.name == a) then
    g.relations.foldl
      (fun acc rel =>
        let acc := if rel.from_ == a then acc ++ [(rel.to_, rel)] else acc
        if rel.to_ == a then acc ++ [(rel.from_, rel)] else acc)
      []
  else []

/-- A path search result (`interface PathResult`). -/
structure PathResult where
  path : List Entity
  relations : List Relation
  length : Nat
deriving DecidableEq

/-- A queue element of the BFS in `findPath`. -/
structure BfsEntry where
  name : Str
  path : List Str
  relations : List Relation
deriving DecidableEq

/-- The `while (queue.length > 0)` loop of `findPath`, with explicit fuel
standing in for the loop's own termination (each node is expanded at most
once, so `bfsFuel` below bounds the number of iterations; sufficiency is
established in the correctness proofs).  The steps mirror the source order:
return on reaching the target, abandon paths longer than `maxDepth`, skip
already-visited nodes, otherwise mark visited and enqueue the not-yet-visited
neighbors in adjacency order. -/
def bfsLoop (g : Graph) (toEntity : Str) (maxDepth : Nat) :
    Nat → List BfsEntry → List Str → Option PathResult
  | 0, _, _ => none
  | _ + 1, [], _ => none
  | fuel + 1, current :: rest, visited =>
    if current.name == toEntity then
      some ⟨current.path.map (fun n => (mapGet g n).getD defaultEntity),
        current.relations, current.path.length - 1⟩
    else if decide (current.path.length > maxDepth) then
      bfsLoop g toEntity maxDepth fuel rest visited
    else if visited.contains current.name then
      bfsLoop g toEntity maxDepth fuel rest visited
    else
      let visited2 := current.name :: visited
      let newEntries := (adjacencyList g current.name).filterMap
        (fun nb =>
          if visited2.contains nb.1 then none
          else some (BfsEntry.mk nb.1 (current.path ++ [nb.1])
            (current.relations ++ [nb.2])))
      bfsLoop g toEntity maxDepth fuel (rest ++ newEntries) visited2

/-- Fuel that provably bounds the iteration count of the BFS loop: one more
than the sum over entities of (adjacency degree + 1). -/
def bfsFuel (g : Graph) : Nat :=
  1 + ((g.entities.map (fun e => e.name)).map
        (fun n => (adjacencyList g n).length + 1)).sum

/-- `findPath(fromEntity, toEntity, maxDepth = 10)`. -/
def findPath (g : Graph) (fromEntity toEntity : Str) (maxDepth : Nat := 10) :
    Option PathResult :=
  if (mapGet g fromEntity).isNone || (mapGet g toEntity).isNone then none
  else if fromEntity == toEntity then
    some ⟨[(mapGet g fromEntity).getD defaultEntity], [], 0⟩
  else
    bfsLoop g toEntity maxDepth (bfsFuel g) [⟨fromEntity, [fromEntity], []⟩] []

/-- Iteration potential of the BFS loop state: the queue length plus, for
each not-yet-visited entity, its adjacency degree plus one.  Each loop step
strictly decreases it, so `bfsFuel` (its initial value) never runs out. -/
def bfsMeasure (g : Graph) (queue : List BfsEntry) (visited : List Str) : Nat :=
  queue.length +
    (((g.entities.map (fun e => e.name)).filter
        (fun n => !visited.contains n)).map
      (fun n => (adjacencyList g n).length + 1)).sum

/-- JS `Set.add` on an insertion-ordered set modelled as a list. -/
def insertNew (l : List Str) (x : Str) : List Str :=
  if l.contains x then l else l ++ [x]

/-- One expansion round of `getSubgraph`: collect the opposite endpoint of
every relation touching the current set, then add them all to the set. -/
def subgraphExpand (g : Graph) (entitySet : List Str) : List Str :=
  let newNeighbors := g.relations.foldl
    (fun acc rel =>
      let acc := if entitySet.contains rel.from_ then insertNew acc rel.to_ else acc
      if entitySet.contains rel.to_ then insertNew acc rel.from_ else acc)
    []
  newNeighbors.foldl insertNew entitySet

/-- `getSubgraph(entityNames, depth = 1)`: run `depth` expansion rounds from
the seed set, then keep the entities in the set and the relations with both
endpoints in the set. -/
def getSubgraph (g : Graph) (entityNames : List Str) (depth : Nat := 1) : Graph :=
  let entitySet := (subgraphExpand g)^[depth] (entityNames.foldl insertNew [])
  { entities := g.entities.filter (fun e => entitySet.contains e.name),
    relations := g.relations.filter (fun r =>
      entitySet.contains r.from_ && entitySet.contains r.to_) }

-- ==================== Query orchestrator (searchNodes) ====================

/-- Options of `searchNodes` (`interface SearchOptions`). -/
structure SearchOptions where
  includeNeighbors : Bool := false
  fuzzy : Bool := false
  limit : Option Nat := none
deriving DecidableEq

/-- The result shape of `searchNodes` (`interface SearchResult`). -/
structure SearchResult where
  entities : List Entity
  relations : List Relation
  scores : List (Str × Nat)
deriving DecidableEq

/-- The global replace `query.replace(/(name|type|obs):\S+/gi, '')` used to
build the scoring query: every `field:` keyword followed by a non-empty
non-whitespace run is deleted; unmatched characters are kept. -/
def stripFieldTokens : Nat → Str → Str
  | 0, s => s
  | _, [] => []
  | fuel + 1, c :: rest =>
    match kwAt (c :: rest) with
    | some (_, klen) =>
      match bareValueAt ((c :: rest).drop klen) with
      | some (_, vlen) => stripFieldTokens fuel ((c :: rest).drop (klen + vlen))
      | none => c :: stripFieldTokens fuel rest
    | none => c :: stripFieldTokens fuel rest

/-- `searchNodes(query, options)`.  The sort is the stable JS
`sort((a, b) => b.score - a.score)`; the limit slice is skipped when `limit`
is absent or `0` (a falsy JS number). -/
def searchNodes (g : Graph) (query : Str) (options : SearchOptions := {}) :
    SearchResult :=
  if (trimWS query).isEmpty then ⟨[], [], []⟩
  else
    let fieldQuery := parseFieldQuery query
    let hasFieldQueries :=
      fieldQuery.name.isSome || fieldQuery.type.isSome || fieldQuery.obs.isSome
    let hasAllQuery :=
      match fieldQuery.all with
      | some a => decide (a.required.length > 0) || decide (a.optional.length > 0) ||
          decide (a.phrases.length > 0)
      | none => false
    if !hasFieldQueries && !hasAllQuery then ⟨[], [], []⟩
    else
      let matched := g.entities.filter (fun entity =>
        if entityMatchesFieldQuery entity fieldQuery then true
        else if options.fuzzy then
          match fieldQuery.all with
          | some a =>
            let allTokens := a.required ++ a.optional ++ a.phrases
            let allText := entity.name ++ [' '] ++ entity.entityType ++ [' '] ++
              joinSpace entity.observations
            allTokens.any (fun tok => fuzzyMatch allText tok)
          | none => false
        else false)
      let rawQuery := trimWS (stripFieldTokens query.length query)
      let effQuery := if rawQuery.isEmpty then query else rawQuery
      let scored := matched.map (fun e => (e, scoreEntity e effQuery options.fuzzy))
      let sorted := scored.mergeSort (fun a b => decide (b.2 ≤ a.2))
      let limited :=
        match options.limit with
        | some l => if l == 0 then sorted else sorted.take l
        | none => sorted
      let matchedEntities := limited.map Prod.fst
      let matchedNames := matchedEntities.map (fun e => e.name)
      let expanded :=
        if options.includeNeighbors && !matchedNames.isEmpty then
          let neighborNames := g.relations.foldl
            (fun acc rel =>
              let acc := if matchedNames.contains rel.from_ then insertNew acc rel.to_ else acc
              if matchedNames.contains rel.to_ then insertNew acc rel.from_ else acc)
            []
          neighborNames.foldl
            (fun st nm =>
              if st.2.contains nm then st
              else
                match g.entities.find? (fun e => e.name == nm) with
                | some ne => (st.1 ++ [ne], st.2 ++ [nm])
                | none => st)
            (matchedEntities, matchedNames)
        else (matchedEntities, matchedNames)
      let filteredRelations := g.relations.filter (fun r =>
        expanded.2.contains r.from_ || expanded.2.contains r.to_)
      ⟨expanded.1, filteredRelations, limited.map (fun s => (s.1.name, s.2))⟩

-- ==================== Specification-side graph notions ====================

/-- The entity names stored in a graph. -/
def namesOf (g : Graph) : List Str := g.entities.map Entity.name

/-- `a` and `b` are joined by some stored relation, read undirectedly, with
no requirement that either endpoint exist as an entity.  This is the hop
notion of `getSubgraph`, whose expansion walks the raw relation list. -/
def RelAdjacent (g : Graph) (a b : Str) : Prop :=
  ∃ r ∈ g.relations, (r.from_ = a ∧ r.to_ = b) ∨ (r.to_ = a ∧ r.from_ = b)

/-- `RelReach g n a b`: `b` is within `n` undirected hops of `a` over the raw
relation list. -/
inductive RelReach (g : Graph) : Nat → Str → Str → Prop where
  | refl (n : Nat) (a : Str) : RelReach g n a a
  | step {n : Nat} {a b c : Str} : RelAdjacent g a b → RelReach g n b c →
      RelReach g (n + 1) a c

/-- The neighbor names reachable in one step of the `findPath` adjacency:
the traversal graph used by the BFS.  A node has neighbors only if it exists
as an entity. -/
def bfsNbrs (g : Graph) (a : Str) : List Str :=
  (adjacencyList g a).map Prod.fst

/-- The names within `n` traversal steps of `start` in the `findPath`
adjacency, computed by saturating neighbor expansion.  The least `n` placing
a target in this set is the true undirected graph-distance between the two
names (over paths whose intermediate nodes exist as entities, which is what
the source traverses). -/
def reachSet (g : Graph) (start : Str) : Nat → List Str
  | 0 => [start]
  | n + 1 => reachSet g start n ++ (reachSet g start n).flatMap (bfsNbrs g)

/-- `ReachIn g n a b`: there is a walk of at most `n` edges from `a` to `b`
in the `findPath` adjacency. -/
inductive ReachIn (g : Graph) : Nat → Str → Str → Prop where
  | refl (n : Nat) (a : Str) : ReachIn g n a a
  | step {n : Nat} {a b c : Str} : b ∈ bfsNbrs g a → ReachIn g n b c →
      ReachIn g (n + 1) a c

/-- The observation list of the first entity bearing a name (the object that
`entities.find` returns), used to state what `addObservations` appends. -/
def obsOfFirst (es : List Entity) (nm : Str) : List Str :=
  ((es.find? (fun e => e.name == nm)).map Entity.observations).getD []

-- ==================== Persistence (JSONL layer) ====================

/-- JSON values as they appear in the persisted lines.  The two record
shapes written by `saveGraph` only contain strings, arrays of strings, and
flat objects, so numbers, booleans, and null — which `JSON.parse` would also
accept but which never occur in the written format (spec section 6) — are
not modelled. -/
inductive JVal where
  | jstr (s : Str)
  | jarr (elems : List JVal)
  | jobj (fields : List (Str × JVal))

/-- Lower-case hex digit for `n < 16`, as produced by `JSON.stringify`
escape sequences. -/
def hexDigitChar (n : Nat) : Char :=
  if n < 10 then Char.ofNat (48 + n) else Char.ofNat (87 + n)

/-- The escaping `JSON.stringify` applies to one string character: quote and
backslash are backslash-escaped, the five short control escapes are used
where they exist, any other control character becomes `\u00XX`, and
everything else is copied verbatim. -/
def escapeChar (c : Char) : Str :=
  if c = '"' then ['\\', '"']
  else if c = '\\' then ['\\', '\\']
  else if c = '\x08' then ['\\', 'b']
  else if c = '\x09' then ['\\', 't']
  else if c = '\x0a' then ['\\', 'n']
  else if c = '\x0c' then ['\\', 'f']
  else if c = '\x0d' then ['\\', 'r']
  else if c.toNat < 32 then
    ['\\', 'u', '0', '0', hexDigitChar (c.toNat / 16), hexDigitChar (c.toNat % 16)]
  else [c]

/-- `JSON.stringify` of a string value. -/
def encodeStr (s : Str) : Str := '"' :: (s.flatMap escapeChar ++ ['"'])

/-- `JSON.stringify` of an array of strings. -/
def encodeStrList (l : List Str) : Str :=
  '[' :: (List.intercalate [','] (l.map encodeStr) ++ [']'])

/-- One line of `saveGraph` for an entity:
`JSON.stringify({type: "entity", name, entityType, observations})` —
an opening brace, the quoted keys in literal order each followed by a colon
and the serialized value, comma separated, and a closing brace, with no
whitespace, exactly the bytes `JSON.stringify` emits. -/
def encodeEntityLine (e : Entity) : Str :=
  '\x7b' :: (encodeStr ("type".toList) ++ ':' ::
    (encodeStr ("entity".toList) ++ ',' ::
    (encodeStr ("name".toList) ++ ':' :: (encodeStr e.name ++ ',' ::
    (encodeStr ("entityType".toList) ++ ':' :: (encodeStr e.entityType ++ ',' ::
    (encodeStr ("observations".toList) ++ ':' ::
    (encodeStrList e.observations ++ ['\x7d']))))))))

/-- One line of `saveGraph` for a relation:
`JSON.stringify({type: "relation", from, to, relationType})`. -/
def encodeRelationLine (r : Relation) : Str :=
  '\x7b' :: (encodeStr ("type".toList) ++ ':' ::
    (encodeStr ("relation".toList) ++ ',' ::
    (encodeStr ("from".toList) ++ ':' :: (encodeStr r.from_ ++ ',' ::
    (encodeStr ("to".toList) ++ ':' :: (encodeStr r.to_ ++ ',' ::
    (encodeStr ("relationType".toList) ++ ':' ::
    (encodeStr r.relationType ++ ['\x7d']))))))))

/-- `saveGraph`: one line per entity, then one line per relation, joined
with newlines (`lines.join("\n")`, no trailing newline), a full overwrite of
the backing file. -/
def saveGraph (g : Graph) : Str :=
  List.intercalate ['\x0a']
    (g.entities.map encodeEntityLine ++ g.relations.map encodeRelationLine)

/-- Numeric value of one hex digit, as `JSON.parse` reads `\uXXXX`. -/
def hexVal (c : Char) : Option Nat :=
  if '0' ≤ c ∧ c ≤ '9' then some (c.toNat - 48)
  else if 'a' ≤ c ∧ c ≤ 'f' then some (c.toNat - 87)
  else if 'A' ≤ c ∧ c ≤ 'F' then some (c.toNat - 55)
  else none

/-- `JSON.parse` of a string body (the opening quote already consumed):
literal characters are copied until the closing quote; a backslash starts
one of the eight named escapes or a `\uXXXX` code. -/
def parseJString : Str → Option (Str × Str)
  | [] => none
  | c :: rest =>
    if c = '"' then some ([], rest)
    else if c = '\\' then
      match rest with
      | [] => none
      | e :: r =>
        if e = '"' then (parseJString r).map (fun p => ('"' :: p.1, p.2))
        else if e = '\\' then (parseJString r).map (fun p => ('\\' :: p.1, p.2))
        else if e = '/' then (parseJString r).map (fun p => ('/' :: p.1, p.2))
        else if e = 'b' then (parseJString r).map (fun p => ('\x08' :: p.1, p.2))
        else if e = 't' then (parseJString r).map (fun p => ('\x09' :: p.1, p.2))
        else if e = 'n' then (parseJString r).map (fun p => ('\x0a' :: p.1, p.2))
        else if e = 'f' then (parseJString r).map (fun p => ('\x0c' :: p.1, p.2))
        else if e = 'r' then (parseJString r).map (fun p => ('\x0d' :: p.1, p.2))
        else if e = 'u' then
          match r with
          | h1 :: h2 :: h3 :: h4 :: r2 =>
            match hexVal h1, hexVal h2, hexVal h3, hexVal h4 with
            | some a, some b, some c2, some d =>
              (parseJString r2).map (fun p =>
                (Char.ofNat (((a * 16 + b) * 16 + c2) * 16 + d) :: p.1, p.2))
            | _, _, _, _ => none
          | _ => none
        else none
    else (parseJString rest).map (fun p => (c :: p.1, p.2))

/-- Comma-separated array elements up to the closing bracket, parameterized
by the value parser; the fuel bounds the element count (the caller passes
the remaining string length, which each element exceeds consuming). -/
def parseElemsAux (pv : Str → Option (JVal × Str)) :
    Nat → Str → Option (List JVal × Str)
  | 0, _ => none
  | fuel + 1, s =>
    match pv s with
    | none => none
    | some (v, rest) =>
      if startsWithStr rest [']'] then some ([v], rest.drop 1)
      else if startsWithStr rest [','] then
        match parseElemsAux pv fuel (rest.drop 1) with
        | some (vs, r2) => some (v :: vs, r2)
        | none => none
      else none

/-- Comma-separated `"key":value` object members up to the closing brace. -/
def parseFieldsAux (pv : Str → Option (JVal × Str)) :
    Nat → Str → Option (List (Str × JVal) × Str)
  | 0, _ => none
  | fuel + 1, s =>
    if startsWithStr s ['"'] then
      match parseJString (s.drop 1) with
      | none => none
      | some (k, s2) =>
        if startsWithStr s2 [':'] then
          match pv (s2.drop 1) with
          | none => none
          | some (v, s3) =>
            if startsWithStr s3 ['\x7d'] then some ([(k, v)], s3.drop 1)
            else if startsWithStr s3 [','] then
              match parseFieldsAux pv fuel (s3.drop 1) with
              | some (fs, s4) => some ((k, v) :: fs, s4)
              | none => none
            else none
        else none
    else none

/-- Recursive-descent `JSON.parse` over the modelled value fragment; fuel
bounds the nesting depth (each level opens with at least one character, so
input length plus any slack is always sufficient).  The writer never emits
whitespace between tokens, so none is skipped. -/
def parseVal : Nat → Str → Option (JVal × Str)
  | 0, _ => none
  | fuel + 1, s =>
    match s with
    | [] => none
    | c :: rest =>
      if c = '"' then
        match parseJString rest with
        | some (str, r) => some (.jstr str, r)
        | none => none
      else if c = '[' then
        if startsWithStr rest [']'] then some (.jarr [], rest.drop 1)
        else
          match parseElemsAux (parseVal fuel) rest.length rest with
          | some (vs, r) => some (.jarr vs, r)
          | none => none
      else if c = '\x7b' then
        if startsWithStr rest ['\x7d'] then some (.jobj [], rest.drop 1)
        else
          match parseFieldsAux (parseVal fuel) rest.length rest with
          | some (fs, r) => some (.jobj fs, r)
          | none => none
      else none

/-- `JSON.parse(line)`: the whole line must be one value with nothing left
over. -/
def jsonParse (s : Str) : Option JVal :=
  match parseVal (s.length + 3) s with
  | some (v, []) => some v
  | _ => none

/-- Reading `item.field` on a parsed object (JS keeps the last entry when a
key repeats). -/
def getField (v : JVal) (k : Str) : Option JVal :=
  match v with
  | .jobj fields => (fields.reverse.find? (fun f => f.1 == k)).map Prod.snd
  | _ => none

/-- An `observations` array must contain only strings to form an entity
record. -/
def decodeStrList : List JVal → Option (List Str)
  | [] => some []
  | .jstr s :: rest => (decodeStrList rest).map (fun l => s :: l)
  | _ :: _ => none

/-- The `{type, ...entity}` destructuring of a parsed entity line: the
record's own fields, the `type` discriminator dropped.  (The JS cast
performs no validation; a malformed object — impossible on `saveGraph`
output — decodes to `none` and is skipped.) -/
def decodeEntity (v : JVal) : Option Entity :=
  match getField v ("name".toList), getField v ("entityType".toList),
      getField v ("observations".toList) with
  | some (.jstr nm), some (.jstr ty), some (.jarr obs) =>
    (decodeStrList obs).map (fun os => ⟨nm, ty, os⟩)
  | _, _, _ => none

/-- The `{type, ...relation}` destructuring of a parsed relation line. -/
def decodeRelation (v : JVal) : Option Relation :=
  match getField v ("from".toList), getField v ("to".toList),
      getField v ("relationType".toList) with
  | some (.jstr f), some (.jstr t), some (.jstr rt) => some ⟨f, t, rt⟩
  | _, _, _ => none

/-- One step of the `lines.reduce(...)` in `loadGraph`: parse the line, and
push the record into the entity or relation list according to its `type`
field (both checks are separate `if`s in the source, mirrored here). -/
def loadLine (g : Graph) (line : Str) : Graph :=
  match jsonParse line with
  | none => g
  | some item =>
    let g1 :=
      match getField item ("type".toList) with
      | some (.jstr t) =>
        if t = "entity".toList then
          match decodeEntity item with
          | some e => { g with entities := g.entities ++ [e] }
          | none => g
        else g
      | _ => g
    match getField item ("type".toList) with
    | some (.jstr t) =>
      if t = "relation".toList then
        match decodeRelation item with
        | some r => { g1 with relations := g1.relations ++ [r] }
        | none => g1
      else g1
    | _ => g1

/-- `loadGraph`: split the file on newlines, drop blank lines, and fold the
remaining lines into a graph. -/
def loadGraph (data : Str) : Graph :=
  ((data.splitOn '\x0a').filter (fun line => !(trimWS line).isEmpty)).foldl
    loadLine ⟨[], []⟩

/-- The parsed form of an entity line, for the round-trip proof. -/
def entityJ (e : Entity) : JVal :=
  .jobj [("type".toList, .jstr ("entity".toList)),
         ("name".toList, .jstr e.name),
         ("entityType".toList, .jstr e.entityType),
         ("observations".toList, .jarr (e.observations.map .jstr))]

/-- The parsed form of a relation line, for the round-trip proof. -/
def relationJ (r : Relation) : JVal :=
  .jobj [("type".toList, .jstr ("relation".toList)),
         ("from".toList, .jstr r.from_),
         ("to".toList, .jstr r.to_),
         ("relationType".toList, .jstr r.relationType)]

-- ==================== Basic string lemmas ====================

theorem startsWithStr_iff (pre hay : Str) :
    startsWithStr hay pre = true ↔ ∃ post, hay = pre ++ post := by
  induction pre generalizing hay with
  | nil => simp [startsWithStr]
  | cons p ps ih =>
    cases hay with
    | nil =>
      simp [startsWithStr]
    | cons h hs =>
      simp only [startsWithStr, Bool.and_eq_true, beq_iff_eq, ih,
        List.cons_append, List.cons.injEq]
      constructor
      · rintro ⟨rfl, post, rfl⟩
        exact ⟨post, rfl, rfl⟩
      · rintro ⟨post, rfl, rfl⟩
        exact ⟨rfl, post, rfl⟩

theorem strIncludes_iff (hay needle : Str) :
    strIncludes hay needle = true ↔ ContainsStr hay needle := by
  induction hay with
  | nil =>
    simp only [strIncludes, List.isEmpty_iff, ContainsStr]
    constructor
    · rintro rfl
      exact ⟨[], [], rfl⟩
    · rintro ⟨pre, post, h⟩
      rcases List.append_eq_nil.mp h.symm with ⟨h1, h2⟩
      rcases List.append_eq_nil.mp h1 with ⟨-, h3⟩
      exact h3
  | cons h t ih =>
    simp only [strIncludes, Bool.or_eq_true, startsWithStr_iff, ih, ContainsStr]
    constructor
    · rintro (⟨post, heq⟩ | ⟨pre, post, heq⟩)
      · exact ⟨[], post, by simpa using heq⟩
      · exact ⟨h :: pre, post, by simp [heq]⟩
    · rintro ⟨pre, post, heq⟩
      cases pre with
      | nil =>
        exact Or.inl ⟨post, by simpa using heq⟩
      | cons p ps =>
        right
        rw [List.cons_append, List.cons_append] at heq
        injection heq with _ h2
        exact ⟨ps, post, h2⟩

-- ==================== C8: matchesParsedQuery ====================

/-- C8: `matchesParsedQuery(text, parsed)` returns true iff every required
term is a substring of the lower-cased text, no excluded term is, every
phrase is, and — only when `optional` is non-empty while `required` and
`phrases` are both empty — some optional term is a substring; in particular
a fully empty parsed query matches every text. -/
theorem C8_matchesParsedQuery_characterization (text : Str) (parsed : ParsedQuery) :
    (matchesParsedQuery text parsed = true ↔
      ((∀ t ∈ parsed.required, ContainsStr (toLowerStr text) t) ∧
       (∀ t ∈ parsed.excluded, ¬ ContainsStr (toLowerStr text) t) ∧
       (∀ p ∈ parsed.phrases, ContainsStr (toLowerStr text) p) ∧
       (parsed.optional ≠ [] → parsed.required = [] → parsed.phrases = [] →
         ∃ t ∈ parsed.optional, ContainsStr (toLowerStr text) t))) ∧
    (parsed.required = [] → parsed.optional = [] → parsed.excluded = [] →
      parsed.phrases = [] → matchesParsedQuery text parsed = true) := by
  constructor
  · simp only [matchesParsedQuery]
    split_ifs with h1 h2 h3 h4
    · simp only [Bool.and_eq_true, decide_eq_true_eq, List.any_eq_true,
        Bool.not_eq_true'] at h1
      obtain ⟨hpos, t, ht, hninc⟩ := h1
      rw [false_iff]
      rintro ⟨hreq, -, -, -⟩
      have := (strIncludes_iff _ _).mpr (hreq t ht)
      rw [hninc] at this
      exact Bool.false_ne_true this
    · simp only [List.any_eq_true] at h2
      obtain ⟨t, ht, hinc⟩ := h2
      rw [false_iff]
      rintro ⟨-, hexc, -, -⟩
      exact hexc t ht ((strIncludes_iff _ _).mp hinc)
    · simp only [List.any_eq_true, Bool.not_eq_true'] at h3
      obtain ⟨p, hp, hninc⟩ := h3
      rw [false_iff]
      rintro ⟨-, -, hphr, -⟩
      have := (strIncludes_iff _ _).mpr (hphr p hp)
      rw [hninc] at this
      exact Bool.false_ne_true this
    · simp only [Bool.and_eq_true, decide_eq_true_eq, Bool.not_eq_true',
        List.any_eq_false] at h4
      obtain ⟨⟨⟨hopt, hreq⟩, hphr⟩, hnone⟩ := h4
      rw [false_iff]
      rintro ⟨-, -, -, himp⟩
      obtain ⟨t, ht, hinc⟩ := himp
        (by intro h; rw [h] at hopt; simp at hopt)
        (List.length_eq_zero.mp hreq) (List.length_eq_zero.mp hphr)
      have := (strIncludes_iff _ _).mpr hinc
      have h6 := hnone t ht
      rw [this] at h6
      simp at h6
    · rw [Bool.not_eq_true] at h1 h2 h3 h4
      refine iff_of_true rfl ⟨?_, ?_, ?_, ?_⟩
      · intro t ht
        rcases Bool.and_eq_false_iff.mp h1 with hl | hr
        · rw [decide_eq_false_iff_not] at hl
          have : parsed.required = [] :=
            List.length_eq_zero.mp (by omega)
          rw [this] at ht
          simp at ht
        · have := List.any_eq_false.mp hr t ht
          simp only [Bool.not_eq_true', Bool.not_eq_false] at this
          exact (strIncludes_iff _ _).mp this
      · intro t ht hc
        have := List.any_eq_false.mp h2 t ht
        rw [(strIncludes_iff _ _).mpr hc] at this
        exact absurd this (by simp)
      · intro p hp
        have := List.any_eq_false.mp h3 p hp
        simp only [Bool.not_eq_true', Bool.not_eq_false] at this
        exact (strIncludes_iff _ _).mp this
      · intro hopt hreq hphr
        have d1 : decide (parsed.optional.length > 0) = true :=
          decide_eq_true (List.length_pos.mpr hopt)
        have d2 : decide (parsed.required.length = 0) = true :=
          decide_eq_true (by rw [hreq]; rfl)
        have d3 : decide (parsed.phrases.length = 0) = true :=
          decide_eq_true (by rw [hphr]; rfl)
        rw [d1, d2, d3] at h4
        simp only [Bool.true_and, Bool.not_eq_false'] at h4
        obtain ⟨t, ht, hinc⟩ := List.any_eq_true.mp h4
        exact ⟨t, ht, (strIncludes_iff _ _).mp hinc⟩
  · intro h1 h2 h3 h4
    simp [matchesParsedQuery, h1, h2, h3, h4]

/-- Witness for C8 at a concrete input: the empty parsed query matches the
text `abc`. -/
theorem C8_witness :
    matchesParsedQuery ['a', 'b', 'c'] ⟨[], [], [], []⟩ = true :=
  (C8_matchesParsedQuery_characterization ['a', 'b', 'c'] ⟨[], [], [], []⟩).2
    rfl rfl rfl rfl

-- ==================== C7: parseQuery token classification ====================

theorem sign_excl {t : Str} (c : Char) (d : Char) (hcd : c ≠ d)
    (h : startsWithStr t [c] = true) : startsWithStr t [d] = false := by
  rcases (startsWithStr_iff _ _).mp h with ⟨post, rfl⟩
  simp only [List.singleton_append, startsWithStr, Bool.and_eq_true, beq_iff_eq]
  simp [startsWithStr, hcd.symm]

theorem classifyToken_eq (r : ParsedQuery) (t : Str) :
    classifyToken r t =
      ⟨r.required ++ (if startsWithStr t ['+'] && decide (t.length > 1) then
          [toLowerStr (t.drop 1)] else []),
       r.optional ++ (if !startsWithStr t ['+'] && !startsWithStr t ['-'] then
          [toLowerStr t] else []),
       r.excluded ++ (if startsWithStr t ['-'] && decide (t.length > 1) then
          [toLowerStr (t.drop 1)] else []),
       r.phrases⟩ := by
  by_cases hp : startsWithStr t ['+'] = true
  · have hm : startsWithStr t ['-'] = false := sign_excl '+' '-' (by decide) hp
    by_cases hl : decide (t.length > 1) = true
    · simp [classifyToken, hp, hm, hl]
    · have hl2 : decide (t.length > 1) = false := by simpa using hl
      simp [classifyToken, hp, hm, hl2]
  · have hp2 : startsWithStr t ['+'] = false := by simpa using hp
    by_cases hm : startsWithStr t ['-'] = true
    · by_cases hl : decide (t.length > 1) = true
      · simp [classifyToken, hp2, hm, hl]
      · have hl2 : decide (t.length > 1) = false := by simpa using hl
        simp [classifyToken, hp2, hm, hl2]
    · have hm2 : startsWithStr t ['-'] = false := by simpa using hm
      simp [classifyToken, hp2, hm2]

theorem classifyToken_foldl (toks : List Str) (r : ParsedQuery) :
    toks.foldl classifyToken r =
      ⟨r.required ++ (toks.filter fun t =>
          startsWithStr t ['+'] && decide (t.length > 1)).map
          (fun t => toLowerStr (t.drop 1)),
       r.optional ++ (toks.filter fun t =>
          !startsWithStr t ['+'] && !startsWithStr t ['-']).map toLowerStr,
       r.excluded ++ (toks.filter fun t =>
          startsWithStr t ['-'] && decide (t.length > 1)).map
          (fun t => toLowerStr (t.drop 1)),
       r.phrases⟩ := by
  induction toks generalizing r with
  | nil =>
    simp only [List.foldl_nil, List.filter_nil, List.map_nil, List.append_nil]
  | cons t ts ih =>
    rw [List.foldl_cons, classifyToken_eq, ih]
    simp only [List.filter_cons, ParsedQuery.mk.injEq]
    refine ⟨?_, ?_, ?_, trivial⟩
    all_goals (split_ifs <;> simp [List.append_assoc])

/-- C7 (amended): `parseQuery` classifies the whitespace-separated tokens of
the phrase-stripped working string as follows: a token starting with `+` of
length > 1 goes, prefix stripped and lower-cased, into `required`; a token
starting with `-` of length > 1 goes into `excluded`; a token starting with
neither sign goes lower-cased into `optional`; a bare `+` or bare `-`
matches none of the three branches and is dropped. -/
theorem C7_parseQuery_token_classification (query : Str) :
    (parseQuery query).required =
      ((splitWS (phraseStripped query)).filter fun t =>
        startsWithStr t ['+'] && decide (t.length > 1)).map
        (fun t => toLowerStr (t.drop 1)) ∧
    (parseQuery query).excluded =
      ((splitWS (phraseStripped query)).filter fun t =>
        startsWithStr t ['-'] && decide (t.length > 1)).map
        (fun t => toLowerStr (t.drop 1)) ∧
    (parseQuery query).optional =
      ((splitWS (phraseStripped query)).filter fun t =>
        !startsWithStr t ['+'] && !startsWithStr t ['-']).map toLowerStr ∧
    (parseQuery query).phrases = (phraseScan query).map toLowerStr := by
  unfold parseQuery
  rw [classifyToken_foldl]
  exact ⟨by simp, by simp, by simp, rfl⟩

/-- C7 counterexample: on the query `+` the working string has the single
token `+`, yet `parseQuery` leaves `optional` (and every other list) empty —
the bare sign is dropped, not classified as an optional term as the claim
states. -/
theorem C7_counterexample :
    splitWS (phraseStripped ['+']) = [['+']] ∧
      parseQuery ['+'] = ⟨[], [], [], []⟩ := by
  constructor <;> rfl

-- ==================== C4: scoreEntity name dominance ====================

/-- C4 (amended): for entities that agree on `entityType` and
`observations`, an exact (case-insensitive) name match scores at least as
much as a mere substring name match: the name block contributes 100 against
50 and the other two blocks depend only on the shared fields.  (Without the
agreement hypothesis the claim fails — see the counterexample.) -/
theorem C4_scoreEntity_name_dominance (q : Str) (fz : Bool) (E1 E2 : Entity)
    (h1 : toLowerStr E1.name = toLowerStr q)
    (h2 : ContainsStr (toLowerStr E2.name) (toLowerStr q))
    (h3 : toLowerStr E2.name ≠ toLowerStr q)
    (ht : E1.entityType = E2.entityType)
    (ho : E1.observations = E2.observations) :
    scoreEntity E2 q fz ≤ scoreEntity E1 q fz := by
  have hn1 : scoreEntityName E1 (toLowerStr q) (tokenize q) q fz = 100 := by
    simp [scoreEntityName, h1]
  have hn2 : scoreEntityName E2 (toLowerStr q) (tokenize q) q fz = 50 := by
    have hne : (toLowerStr E2.name == toLowerStr q) = false := by
      simpa using h3
    have hinc : strIncludes (toLowerStr E2.name) (toLowerStr q) = true :=
      (strIncludes_iff _ _).mpr h2
    simp [scoreEntityName, hne, hinc]
  have htype : scoreEntityType E1 (toLowerStr q) (tokenize q) =
      scoreEntityType E2 (toLowerStr q) (tokenize q) := by
    simp only [scoreEntityType, ht]
  simp only [scoreEntity, hn1, hn2, htype, ho]
  omega

/-- Witness for C4 at a concrete input: name `a` (exact match for query
`a`) scores at least name `ab` (substring match) when type and
observations coincide. -/
theorem C4_witness :
    scoreEntity ⟨['a', 'b'], ['t'], []⟩ ['a'] false ≤
      scoreEntity ⟨['a'], ['t'], []⟩ ['a'] false :=
  C4_scoreEntity_name_dominance ['a'] false ⟨['a'], ['t'], []⟩ ⟨['a', 'b'], ['t'], []⟩
    rfl ⟨[], ['b'], rfl⟩ (by decide) rfl rfl

/-- C4 counterexample: the claim as stated compares entities with different
types and observations.  With query `a`, entity E1 = (name `a`, type `z`,
no observations) matches the query exactly by name and scores 100, while
E2 = (name `ab`, type `a`, observations `a b`, `a c`, `a d`, `a e`) only
contains the query in its name yet scores 50 + 40 + 4 * 15 = 150 > 100. -/
theorem C4_counterexample :
    toLowerStr (Entity.mk ['a'] ['z'] []).name = toLowerStr ['a'] ∧
    ContainsStr
      (toLowerStr (Entity.mk ['a', 'b'] ['a']
        [['a', ' ', 'b'], ['a', ' ', 'c'], ['a', ' ', 'd'], ['a', ' ', 'e']]).name)
      (toLowerStr ['a']) ∧
    toLowerStr (Entity.mk ['a', 'b'] ['a']
        [['a', ' ', 'b'], ['a', ' ', 'c'], ['a', ' ', 'd'], ['a', ' ', 'e']]).name ≠
      toLowerStr ['a'] ∧
    scoreEntity (Entity.mk ['a'] ['z'] []) ['a'] false <
      scoreEntity (Entity.mk ['a', 'b'] ['a']
        [['a', ' ', 'b'], ['a', ' ', 'c'], ['a', ' ', 'd'], ['a', ' ', 'e']]) ['a'] false := by
  refine ⟨rfl, ⟨[], ['b'], rfl⟩, by decide, by decide⟩

-- ==================== C10: exclusion-only queries ====================

/-- C10: for every graph, `searchNodes` on a non-empty query that yields no
field scopes and whose catch-all slot carries no required, optional, or
phrase terms (an exclusion-only query such as `-foo`) returns the empty
result: the usable-content check counts only required, optional, and phrase
terms. -/
theorem C10_searchNodes_exclusion_only (g : Graph) (query : Str)
    (opts : SearchOptions)
    (hne : (trimWS query).isEmpty = false)
    (hn : (parseFieldQuery query).name = none)
    (ht : (parseFieldQuery query).type = none)
    (ho : (parseFieldQuery query).obs = none)
    (ha : ∀ a, (parseFieldQuery query).all = some a →
      a.required = [] ∧ a.optional = [] ∧ a.phrases = []) :
    searchNodes g query opts = ⟨[], [], []⟩ := by
  cases hall : (parseFieldQuery query).all with
  | none =>
    simp [searchNodes, hne, hn, ht, ho, hall]
  | some a =>
    obtain ⟨r1, r2, r3⟩ := ha a hall
    simp [searchNodes, hne, hn, ht, ho, hall, r1, r2, r3]

/-- Witness for C10 at a concrete input: the query `-foo` returns the empty
result over a one-entity graph even though the entity does not contain
`foo`. -/
theorem C10_witness :
    searchNodes ⟨[⟨['a'], ['t'], []⟩], []⟩ ("-foo".toList) {} = ⟨[], [], []⟩ := by
  refine C10_searchNodes_exclusion_only _ _ _ rfl rfl rfl rfl ?_
  intro a h
  rw [show (parseFieldQuery ("-foo".toList)).all =
    some (ParsedQuery.mk [] [] ["foo".toList] []) from rfl] at h
  cases h
  exact ⟨rfl, rfl, rfl⟩

-- ==================== C2: entity-name uniqueness ====================

theorem updateFirst_map_name (es : List Entity) (nm : Str) (f : Entity → Entity)
    (hf : ∀ e, (f e).name = e.name) :
    (updateFirst es nm f).map Entity.name = es.map Entity.name := by
  induction es with
  | nil => rfl
  | cons e rest ih =>
    unfold updateFirst
    split_ifs with h
    · simp [hf e]
    · simp [ih]

theorem addObsOne_map_name (es es2 : List Entity) (o : ObsRequest) (added : List Str)
    (h : addObsOne es o = .ok (es2, added)) :
    es2.map Entity.name = es.map Entity.name := by
  unfold addObsOne at h
  cases hf : es.find? (fun e => e.name == o.entityName) with
  | none =>
    rw [hf] at h
    exact Except.noConfusion h
  | some e =>
    rw [hf] at h
    dsimp only at h
    injection h with h
    injection h with h1 h2
    rw [← h1]
    exact updateFirst_map_name _ _ _ (fun e => rfl)

theorem addObsLoop_map_name (reqs : List ObsRequest) (es es2 : List Entity)
    (rs : List ObsResult) (h : addObsLoop es reqs = .ok (es2, rs)) :
    es2.map Entity.name = es.map Entity.name := by
  induction reqs generalizing es es2 rs with
  | nil =>
    unfold addObsLoop at h
    cases h
    rfl
  | cons o rest ih =>
    unfold addObsLoop at h
    cases h1 : addObsOne es o with
    | error e =>
      rw [h1] at h
      exact Except.noConfusion h
    | ok p =>
      obtain ⟨es3, added⟩ := p
      rw [h1] at h
      dsimp only at h
      cases h2 : addObsLoop es3 rest with
      | error e =>
        rw [h2] at h
        exact Except.noConfusion h
      | ok q =>
        obtain ⟨fin, results⟩ := q
        rw [h2] at h
        dsimp only at h
        injection h with h
        injection h with h3 h4
        rw [← h3, ih es3 fin results h2]
        exact addObsOne_map_name es es3 o added h1

/-- C2 (amended): entity-name uniqueness is preserved by every mutating
operation provided the `createEntities` batch itself carries pairwise
distinct names; a batch repeating a fresh name defeats the existing-name
filter (which only consults the stored graph) and stores the name twice —
see the counterexample. -/
theorem C2_name_uniqueness_preserved (g : Graph) (hg : (namesOf g).Nodup) :
    (∀ batch : List Entity, (batch.map Entity.name).Nodup →
      (namesOf (createEntities g batch).1).Nodup) ∧
    (∀ rels : List Relation, (namesOf (createRelations g rels).1).Nodup) ∧
    (∀ reqs g2 rs, addObservations g reqs = .ok (g2, rs) →
      (namesOf g2).Nodup) ∧
    (∀ names : List Str, (namesOf (deleteEntities g names)).Nodup) ∧
    (∀ dels : List ObsDeletion, (namesOf (deleteObservations g dels)).Nodup) ∧
    (∀ rels : List Relation, (namesOf (deleteRelations g rels)).Nodup) := by
  refine ⟨?_, ?_, ?_, ?_, ?_, ?_⟩
  · intro batch hbatch
    unfold createEntities namesOf
    simp only [List.map_append]
    refine List.Nodup.append hg ?_ ?_
    · exact ((List.filter_sublist _).map Entity.name).nodup hbatch
    · intro a ha hb
      simp only [List.mem_map] at hb
      obtain ⟨e, he, rfl⟩ := hb
      have := List.of_mem_filter he
      simp only [Bool.not_eq_true', List.any_eq_false] at this
      simp only [namesOf, List.mem_map] at ha
      obtain ⟨ex, hex, hname⟩ := ha
      have := this ex hex
      rw [hname] at this
      simp at this
  · exact fun _ => hg
  · intro reqs g2 rs h
    unfold addObservations at h
    cases h1 : addObsLoop g.entities reqs with
    | error e =>
      rw [h1] at h
      exact Except.noConfusion h
    | ok p =>
      obtain ⟨es3, results⟩ := p
      rw [h1] at h
      dsimp only at h
      injection h with h
      injection h with h2 h3
      have hnm := addObsLoop_map_name reqs g.entities es3 results h1
      unfold namesOf
      rw [← h2]
      simpa [namesOf, hnm] using hg
  · intro names
    exact ((List.filter_sublist _).map Entity.name).nodup hg
  · intro dels
    unfold deleteObservations namesOf
    simp only
    have : ∀ (ds : List ObsDeletion) (es : List Entity),
        (ds.foldl (fun es d => updateFirst es d.entityName
          (fun e => { e with observations :=
            e.observations.filter (fun o => !d.observations.contains o) })) es).map
          Entity.name = es.map Entity.name := by
      intro ds
      induction ds with
      | nil => intro es; rfl
      | cons d rest ih =>
        intro es
        rw [List.foldl_cons, ih]
        exact updateFirst_map_name _ _ _ (fun e => rfl)
    rw [this]
    exact hg
  · exact fun _ => hg

/-- C2 counterexample: a single `createEntities` call whose batch contains
two entities with the same fresh name `x` stores the name twice. -/
theorem C2_counterexample :
    ¬ ((namesOf (createEntities ⟨[], []⟩
        [⟨['x'], ['t'], []⟩, ⟨['x'], ['u'], []⟩]).1).Nodup) := by
  decide

/-- Witness for C2 at a concrete input: adding a fresh, duplicate-free batch
to a one-entity graph keeps the stored names distinct. -/
theorem C2_witness :
    (namesOf (createEntities ⟨[⟨['a'], ['t'], []⟩], []⟩ [⟨['b'], ['t'], []⟩]).1).Nodup :=
  (C2_name_uniqueness_preserved ⟨[⟨['a'], ['t'], []⟩], []⟩ (by decide)).1
    [⟨['b'], ['t'], []⟩] (by decide)

-- ==================== C3: getSubgraph ====================

theorem contains_eq_mem (l : List Str) (x : Str) :
    l.contains x = decide (x ∈ l) := by
  rw [Bool.eq_iff_iff, List.contains_iff_exists_mem_beq, decide_eq_true_iff]
  constructor
  · rintro ⟨a, ha, hbeq⟩
    rw [eq_of_beq hbeq]
    exact ha
  · intro hx
    exact ⟨x, hx, by simp⟩

theorem mem_insertNew (acc : List Str) (a x : Str) :
    x ∈ insertNew acc a ↔ x ∈ acc ∨ x = a := by
  unfold insertNew
  split_ifs with h
  · rw [contains_eq_mem, decide_eq_true_iff] at h
    constructor
    · exact Or.inl
    · rintro (hx | rfl)
      · exact hx
      · exact h
  · simp

theorem mem_foldl_insertNew (l acc : List Str) (x : Str) :
    x ∈ l.foldl insertNew acc ↔ x ∈ acc ∨ x ∈ l := by
  induction l generalizing acc with
  | nil => simp
  | cons a t ih =>
    rw [List.foldl_cons, ih, mem_insertNew]
    constructor
    · rintro ((hx | rfl) | hx)
      · exact Or.inl hx
      · exact Or.inr (List.mem_cons_self _ _)
      · exact Or.inr (List.mem_cons_of_mem _ hx)
    · rintro (hx | hx)
      · exact Or.inl (Or.inl hx)
      · rcases List.mem_cons.mp hx with rfl | hx
        · exact Or.inl (Or.inr rfl)
        · exact Or.inr hx

theorem mem_nbrFold (rels : List Relation) (S acc : List Str) (x : Str)
    (h : x ∈ rels.foldl
      (fun acc rel =>
        let acc := if S.contains rel.from_ then insertNew acc rel.to_ else acc
        if S.contains rel.to_ then insertNew acc rel.from_ else acc)
      acc) :
    x ∈ acc ∨ ∃ rel ∈ rels,
      (S.contains rel.from_ = true ∧ x = rel.to_) ∨
      (S.contains rel.to_ = true ∧ x = rel.from_) := by
  induction rels generalizing acc with
  | nil => exact Or.inl h
  | cons rel rest ih =>
    rw [List.foldl_cons] at h
    rcases ih _ h with hacc | ⟨r, hr, hcase⟩
    · dsimp only at hacc
      split_ifs at hacc with h2 h1a h1b
      · rw [mem_insertNew] at hacc
        rcases hacc with hacc | rfl
        · rw [mem_insertNew] at hacc
          rcases hacc with hacc | rfl
          · exact Or.inl hacc
          · exact Or.inr ⟨rel, List.mem_cons_self _ _, Or.inl ⟨h1a, rfl⟩⟩
        · exact Or.inr ⟨rel, List.mem_cons_self _ _, Or.inr ⟨h2, rfl⟩⟩
      · rw [mem_insertNew] at hacc
        rcases hacc with hacc | rfl
        · exact Or.inl hacc
        · exact Or.inr ⟨rel, List.mem_cons_self _ _, Or.inr ⟨h2, rfl⟩⟩
      · rw [mem_insertNew] at hacc
        rcases hacc with hacc | rfl
        · exact Or.inl hacc
        · exact Or.inr ⟨rel, List.mem_cons_self _ _, Or.inl ⟨h1b, rfl⟩⟩
      · exact Or.inl hacc
    · exact Or.inr ⟨r, List.mem_cons_of_mem _ hr, hcase⟩

theorem mem_subgraphExpand (g : Graph) (S : List Str) (x : Str)
    (hx : x ∈ subgraphExpand g S) :
    x ∈ S ∨ ∃ y ∈ S, RelAdjacent g y x := by
  unfold subgraphExpand at hx
  rw [mem_foldl_insertNew] at hx
  rcases hx with hx | hx
  · exact Or.inl hx
  · rcases mem_nbrFold _ _ _ _ hx with hnil | ⟨rel, hrel, hcase⟩
    · simp at hnil
    · rcases hcase with ⟨hc, rfl⟩ | ⟨hc, rfl⟩
      · rw [contains_eq_mem, decide_eq_true_iff] at hc
        exact Or.inr ⟨rel.from_, hc, rel, hrel, Or.inl ⟨rfl, rfl⟩⟩
      · rw [contains_eq_mem, decide_eq_true_iff] at hc
        exact Or.inr ⟨rel.to_, hc, rel, hrel, Or.inr ⟨rfl, rfl⟩⟩

theorem RelReach.mono {g : Graph} {n : Nat} {a b : Str}
    (h : RelReach g n a b) : RelReach g (n + 1) a b := by
  induction h with
  | refl n a => exact RelReach.refl _ _
  | step hadj _ ih => exact RelReach.step hadj ih

theorem RelReach.snoc {g : Graph} {n : Nat} {a b c : Str}
    (h : RelReach g n a b) (hadj : RelAdjacent g b c) :
    RelReach g (n + 1) a c := by
  induction h with
  | refl n a => exact RelReach.step hadj (RelReach.refl _ _)
  | step hadj2 _ ih => exact RelReach.step hadj2 (ih hadj)

theorem subgraph_iterate_reach (g : Graph) (seeds : List Str) (k : Nat) :
    ∀ x ∈ (subgraphExpand g)^[k] (seeds.foldl insertNew []), ∃ s ∈ seeds, RelReach g k s x := by
  induction k with
  | zero =>
    intro x hx
    rw [Function.iterate_zero_apply, mem_foldl_insertNew] at hx
    rcases hx with hx | hx
    · simp at hx
    · exact ⟨x, hx, RelReach.refl _ _⟩
  | succ k ih =>
    intro x hx
    rw [Function.iterate_succ_apply'] at hx
    rcases mem_subgraphExpand _ _ _ hx with hx | ⟨y, hy, hadj⟩
    · obtain ⟨s, hs, hreach⟩ := ih x hx
      exact ⟨s, hs, hreach.mono⟩
    · obtain ⟨s, hs, hreach⟩ := ih y hy
      exact ⟨s, hs, hreach.snoc hadj⟩

/-- C3 (amended): `getSubgraph(seeds, 0)` returns exactly the seed entities
together with the relations both of whose endpoints are seeds — not an empty
relation list, as the claim states (see the counterexample); and for every
depth `k`, every entity of `getSubgraph(seeds, k)` is within `k` undirected
hops of some seed over the raw relation list. -/
theorem C3_getSubgraph_depth (g : Graph) (seeds : List Str) :
    ((getSubgraph g seeds 0).entities =
        g.entities.filter (fun e => seeds.contains e.name) ∧
      (getSubgraph g seeds 0).relations =
        g.relations.filter (fun r => seeds.contains r.from_ && seeds.contains r.to_)) ∧
    (∀ k : Nat, ∀ e ∈ (getSubgraph g seeds k).entities,
      ∃ s ∈ seeds, RelReach g k s e.name) := by
  have hset : ∀ x : Str, (seeds.foldl insertNew []).contains x = seeds.contains x := by
    intro x
    rw [contains_eq_mem, contains_eq_mem]
    congr 1
    rw [eq_iff_iff, mem_foldl_insertNew]
    simp
  refine ⟨⟨?_, ?_⟩, ?_⟩
  · unfold getSubgraph
    rw [Function.iterate_zero_apply]
    exact List.filter_congr (fun e _ => hset e.name)
  · unfold getSubgraph
    rw [Function.iterate_zero_apply]
    exact List.filter_congr (fun r _ => by rw [hset r.from_, hset r.to_])
  · intro k e he
    unfold getSubgraph at he
    have := List.of_mem_filter he
    rw [contains_eq_mem, decide_eq_true_iff] at this
    exact subgraph_iterate_reach g seeds k e.name this

/-- C3 counterexample: at depth 0 with both endpoints of a relation given as
seeds, the returned relation list is that relation, not the empty list the
claim demands. -/
theorem C3_counterexample :
    (getSubgraph ⟨[⟨['a'], ['t'], []⟩, ⟨['b'], ['t'], []⟩],
        [⟨['a'], ['b'], ['r']⟩]⟩ [['a'], ['b']] 0).relations =
      [⟨['a'], ['b'], ['r']⟩] := by
  decide

/-- Witness for C3 at a concrete input: the entity `b` in the depth-1
subgraph around seed `a` is within one hop of a seed. -/
theorem C3_witness :
    ∃ s ∈ [['a']], RelReach
      ⟨[⟨['a'], ['t'], []⟩, ⟨['b'], ['t'], []⟩], [⟨['a'], ['b'], ['r']⟩]⟩ 1 s ['b'] :=
  (C3_getSubgraph_depth
      ⟨[⟨['a'], ['t'], []⟩, ⟨['b'], ['t'], []⟩], [⟨['a'], ['b'], ['r']⟩]⟩ [['a']]).2
    1 ⟨['b'], ['t'], []⟩ (by decide)

-- ==================== C5: addObservations deduplication ====================

theorem find?_name_cons_pos (a : Entity) (l : List Entity) (nm : Str)
    (h : (a.name == nm) = true) :
    (a :: l).find? (fun e => e.name == nm) = some a := by
  simp [List.find?_cons, h]

theorem find?_name_cons_neg (a : Entity) (l : List Entity) (nm : Str)
    (h : (a.name == nm) = false) :
    (a :: l).find? (fun e => e.name == nm) = l.find? (fun e => e.name == nm) := by
  simp [List.find?_cons, h]

theorem mem_updateFirst (es : List Entity) (nm : Str) (f : Entity → Entity) :
    ∀ e2 ∈ updateFirst es nm f, e2 ∈ es ∨
      ∃ e, es.find? (fun e => e.name == nm) = some e ∧ e2 = f e := by
  induction es with
  | nil =>
    intro e2 h
    exact absurd h (by simp [updateFirst])
  | cons e rest ih =>
    intro e2 h2
    unfold updateFirst at h2
    by_cases hb : (e.name == nm) = true
    · rw [if_pos hb] at h2
      rcases List.mem_cons.mp h2 with rfl | h2
      · exact Or.inr ⟨e, find?_name_cons_pos e rest nm hb, rfl⟩
      · exact Or.inl (List.mem_cons_of_mem _ h2)
    · rw [if_neg hb] at h2
      rcases List.mem_cons.mp h2 with rfl | h2
      · exact Or.inl (List.mem_cons_self _ _)
      · rcases ih e2 h2 with h | ⟨e', hfind, rfl⟩
        · exact Or.inl (List.mem_cons_of_mem _ h)
        · refine Or.inr ⟨e', ?_, rfl⟩
          rw [find?_name_cons_neg e rest nm (by simpa using hb), hfind]

theorem find?_updateFirst_same (es : List Entity) (nm : Str) (f : Entity → Entity)
    (hf : ∀ e, (f e).name = e.name) :
    (updateFirst es nm f).find? (fun e => e.name == nm) =
      (es.find? (fun e => e.name == nm)).map f := by
  induction es with
  | nil => rfl
  | cons e rest ih =>
    unfold updateFirst
    by_cases hb : (e.name == nm) = true
    · rw [if_pos hb, find?_name_cons_pos (f e) rest nm (by rw [hf e]; exact hb),
        find?_name_cons_pos e rest nm hb]
      rfl
    · rw [if_neg hb,
        find?_name_cons_neg e (updateFirst rest nm f) nm (by simpa using hb),
        find?_name_cons_neg e rest nm (by simpa using hb)]
      exact ih

theorem find?_updateFirst_other (es : List Entity) (nm nm' : Str)
    (f : Entity → Entity) (hf : ∀ e, (f e).name = e.name) (hne : nm' ≠ nm) :
    (updateFirst es nm f).find? (fun e => e.name == nm') =
      es.find? (fun e => e.name == nm') := by
  induction es with
  | nil => rfl
  | cons e rest ih =>
    unfold updateFirst
    by_cases hb : (e.name == nm) = true
    · have hensename : e.name = nm := by simpa using hb
      have hno : ((f e).name == nm') = false := by
        rw [hf e, hensename]
        simp [Ne.symm hne]
      have hno2 : (e.name == nm') = false := by
        rw [hensename]
        simp [Ne.symm hne]
      rw [if_pos hb, find?_name_cons_neg (f e) rest nm' hno,
        find?_name_cons_neg e rest nm' hno2]
    · rw [if_neg hb]
      by_cases hb2 : (e.name == nm') = true
      · rw [find?_name_cons_pos e (updateFirst rest nm f) nm' hb2,
          find?_name_cons_pos e rest nm' hb2]
      · rw [find?_name_cons_neg e (updateFirst rest nm f) nm' (by simpa using hb2),
          find?_name_cons_neg e rest nm' (by simpa using hb2)]
        exact ih

theorem addObsOne_spec (es es2 : List Entity) (o : ObsRequest) (added : List Str)
    (h : addObsOne es o = .ok (es2, added)) :
    added = o.contents.filter
      (fun c => !(obsOfFirst es o.entityName).contains c) ∧
    obsOfFirst es2 o.entityName = obsOfFirst es o.entityName ++ added ∧
    (∀ nm, nm ≠ o.entityName → obsOfFirst es2 nm = obsOfFirst es nm) ∧
    ((∀ e ∈ es, e.observations.Nodup) → o.contents.Nodup →
      ∀ e2 ∈ es2, e2.observations.Nodup) := by
  unfold addObsOne at h
  cases hf : es.find? (fun e => e.name == o.entityName) with
  | none =>
    rw [hf] at h
    exact Except.noConfusion h
  | some e =>
    rw [hf] at h
    dsimp only at h
    injection h with h
    injection h with h1 h2
    have hofirst : obsOfFirst es o.entityName = e.observations := by
      unfold obsOfFirst
      rw [hf]
      rfl
    have hadded : added = o.contents.filter
        (fun c => !(obsOfFirst es o.entityName).contains c) := by
      rw [hofirst, ← h2]
    refine ⟨hadded, ?_, ?_, ?_⟩
    · unfold obsOfFirst
      rw [← h1, find?_updateFirst_same es o.entityName]
      · rw [hf]
        simp only [Option.map_some', Option.getD_some]
        rw [h2]
      · exact fun e2 => rfl
    · intro nm hne
      unfold obsOfFirst
      rw [← h1, find?_updateFirst_other es o.entityName nm]
      · exact fun e2 => rfl
      · exact hne
    · intro hall hcont e2 he2
      rw [← h1] at he2
      rcases mem_updateFirst _ _ _ e2 he2 with hmem | ⟨e', hfind', rfl⟩
      · exact hall e2 hmem
      · rw [hf] at hfind'
        injection hfind' with hfind'
        rw [← hfind']
        simp only
        refine List.Nodup.append (hall e (List.mem_of_find?_eq_some hf)) ?_ ?_
        · exact (List.filter_sublist _).nodup hcont
        · intro a ha hb
          have := List.of_mem_filter hb
          rw [contains_eq_mem] at this
          simp only [Bool.not_eq_true', decide_eq_false_iff_not] at this
          exact this ha

theorem addObsLoop_spec (reqs : List ObsRequest) (es es2 : List Entity)
    (rs : List ObsResult) (h : addObsLoop es reqs = .ok (es2, rs))
    (hall : ∀ e ∈ es, e.observations.Nodup)
    (hreq : ∀ r ∈ reqs, r.contents.Nodup) :
    (∀ e ∈ es2, e.observations.Nodup) ∧
    rs.map ObsResult.entityName = reqs.map ObsRequest.entityName ∧
    (∀ nm : Str, obsOfFirst es2 nm = obsOfFirst es nm ++
      ((rs.filter (fun r => r.entityName == nm)).map
        ObsResult.addedObservations).flatten) := by
  induction reqs generalizing es es2 rs with
  | nil =>
    unfold addObsLoop at h
    cases h
    exact ⟨hall, rfl, fun nm => by simp⟩
  | cons o rest ih =>
    unfold addObsLoop at h
    cases h1 : addObsOne es o with
    | error e =>
      rw [h1] at h
      exact Except.noConfusion h
    | ok p =>
      obtain ⟨es3, added⟩ := p
      rw [h1] at h
      dsimp only at h
      cases h2 : addObsLoop es3 rest with
      | error e =>
        rw [h2] at h
        exact Except.noConfusion h
      | ok q =>
        obtain ⟨fin, results⟩ := q
        rw [h2] at h
        dsimp only at h
        injection h with h
        injection h with h3 h4
        obtain ⟨hadd, hsame, hother, hnodup⟩ := addObsOne_spec es es3 o added h1
        have hall3 : ∀ e ∈ es3, e.observations.Nodup :=
          hnodup hall (hreq o (List.mem_cons_self _ _))
        obtain ⟨hn2, hnames2, hofirst2⟩ :=
          ih es3 fin results h2 hall3 (fun r hr => hreq r (List.mem_cons_of_mem _ hr))
        subst h3 h4
        refine ⟨hn2, by simp [hnames2], ?_⟩
        intro nm
        rw [hofirst2 nm, List.filter_cons]
        by_cases hnm : nm = o.entityName
        · subst hnm
          rw [hsame]
          simp [List.append_assoc]
        · rw [hother nm hnm]
          have hbeq : (o.entityName == nm) = false :=
            beq_eq_false_iff_ne.mpr (Ne.symm hnm)
          simp [List.filter_cons, hbeq]

/-- C5 (amended): when every entity's observation list and every request's
`contents` list is itself duplicate-free, `addObservations` keeps every
entity's observations duplicate-free, preserves the stored entity order and
names, appends (never reorders) observations, and reports per request
exactly the strings it appended: for every name, the observations of the
first entity bearing it equal the old list followed by the concatenation of
the returned `addedObservations` for that name.  When a single request's
`contents` lists the same string twice, both copies pass the dedup filter
(which only consults the pre-existing observations) and are both appended —
see the counterexample. -/
theorem C5_addObservations_dedup (g : Graph) (reqs : List ObsRequest)
    (g2 : Graph) (rs : List ObsResult)
    (hok : addObservations g reqs = .ok (g2, rs))
    (hobs : ∀ e ∈ g.entities, e.observations.Nodup)
    (hreq : ∀ r ∈ reqs, r.contents.Nodup) :
    (∀ e ∈ g2.entities, e.observations.Nodup) ∧
    g2.entities.map Entity.name = g.entities.map Entity.name ∧
    rs.map ObsResult.entityName = reqs.map ObsRequest.entityName ∧
    (∀ nm : Str, obsOfFirst g2.entities nm = obsOfFirst g.entities nm ++
      ((rs.filter (fun r => r.entityName == nm)).map
        ObsResult.addedObservations).flatten) := by
  unfold addObservations at hok
  cases h1 : addObsLoop g.entities reqs with
  | error e =>
    rw [h1] at hok
    exact Except.noConfusion hok
  | ok p =>
    obtain ⟨es3, results⟩ := p
    rw [h1] at hok
    dsimp only at hok
    injection hok with hok
    injection hok with h2 h3
    obtain ⟨ha, hb, hc⟩ := addObsLoop_spec reqs g.entities es3 results h1 hobs hreq
    have hname := addObsLoop_map_name reqs g.entities es3 results h1
    subst h3
    refine ⟨?_, ?_, hb, ?_⟩
    · rw [← h2]
      exact ha
    · rw [← h2]
      exact hname
    · rw [← h2]
      exact hc

/-- C5 counterexample: a request whose `contents` array lists the string `x`
twice appends both copies to an entity that lacked `x`, leaving a duplicated
observation, and reports both copies as added. -/
theorem C5_counterexample :
    addObservations ⟨[⟨['e'], ['t'], []⟩], []⟩ [⟨['e'], [['x'], ['x']]⟩] =
      .ok (⟨[⟨['e'], ['t'], [['x'], ['x']]⟩], []⟩, [⟨['e'], [['x'], ['x']]⟩]) ∧
    ¬ ([['x'], ['x']] : List Str).Nodup :=
  ⟨rfl, by decide⟩

/-- Witness for C5 at a concrete input: adding the single observation `x` to
an entity with empty observations keeps every observation list
duplicate-free. -/
theorem C5_witness :
    (⟨['e'], ['t'], [['x']]⟩ : Entity).observations.Nodup :=
  (C5_addObservations_dedup ⟨[⟨['e'], ['t'], []⟩], []⟩ [⟨['e'], [['x']]⟩]
    ⟨[⟨['e'], ['t'], [['x']]⟩], []⟩ [⟨['e'], [['x']]⟩] rfl
    (by decide) (by decide)).1 ⟨['e'], ['t'], [['x']]⟩ (by decide)

-- ==================== C6: strictness of addObservations ====================

theorem find?_name_none_iff (es : List Entity) (nm : Str) :
    es.find? (fun e => e.name == nm) = none ↔ nm ∉ es.map Entity.name := by
  rw [List.find?_eq_none]
  constructor
  · intro h hmem
    rcases List.mem_map.mp hmem with ⟨x, hx, hname⟩
    exact h x hx (by simp [hname])
  · intro h x hx hbeq
    have hname : x.name = nm := by simpa using hbeq
    exact h (hname ▸ List.mem_map_of_mem Entity.name hx)

theorem addObsLoop_error_iff (reqs : List ObsRequest) (es : List Entity) :
    (∃ msg, addObsLoop es reqs = .error msg) ↔
      ∃ r ∈ reqs, es.find? (fun e => e.name == r.entityName) = none := by
  induction reqs generalizing es with
  | nil =>
    simp [addObsLoop]
  | cons o rest ih =>
    unfold addObsLoop
    cases hfind : es.find? (fun e => e.name == o.entityName) with
    | none =>
      constructor
      · intro _
        exact ⟨o, List.mem_cons_self _ _, hfind⟩
      · intro _
        unfold addObsOne
        rw [hfind]
        exact ⟨_, rfl⟩
    | some e =>
      have hone : addObsOne es o = .ok
          (updateFirst es o.entityName (fun e2 =>
            { e2 with observations := e2.observations ++
              o.contents.filter (fun content => !e.observations.contains content) }),
           o.contents.filter (fun content => !e.observations.contains content)) := by
        unfold addObsOne
        rw [hfind]
      rw [hone]
      dsimp only
      have hnames : (updateFirst es o.entityName (fun e2 =>
          { e2 with observations := e2.observations ++
            o.contents.filter (fun content => !e.observations.contains content) })).map
            Entity.name = es.map Entity.name :=
        updateFirst_map_name _ _ _ (fun e2 => rfl)
      constructor
      · rintro ⟨msg, hmsg⟩
        cases h2 : addObsLoop (updateFirst es o.entityName _) rest with
        | error msg2 =>
          obtain ⟨r, hr, hrnone⟩ := (ih _).mp ⟨msg2, h2⟩
          refine ⟨r, List.mem_cons_of_mem _ hr, ?_⟩
          rw [find?_name_none_iff] at hrnone ⊢
          rwa [hnames] at hrnone
        | ok q =>
          rw [h2] at hmsg
          obtain ⟨fin, results⟩ := q
          exact Except.noConfusion hmsg
      · rintro ⟨r, hr, hrnone⟩
        rcases List.mem_cons.mp hr with rfl | hr
        · rw [hfind] at hrnone
          exact Option.noConfusion hrnone
        · have : ∃ msg, addObsLoop (updateFirst es o.entityName (fun e2 =>
              { e2 with observations := e2.observations ++
                o.contents.filter (fun content => !e.observations.contains content) }))
              rest = .error msg := by
            refine (ih _).mpr ⟨r, hr, ?_⟩
            rw [find?_name_none_iff, hnames, ← find?_name_none_iff]
            exact hrnone
          obtain ⟨msg, hmsg⟩ := this
          rw [hmsg]
          exact ⟨msg, rfl⟩

theorem updateFirst_noop (es : List Entity) (nm : Str) (f : Entity → Entity)
    (h : nm ∉ es.map Entity.name) : updateFirst es nm f = es := by
  induction es with
  | nil => rfl
  | cons e rest ih =>
    unfold updateFirst
    have hb : (e.name == nm) = false := by
      simp only [List.map_cons, List.mem_cons, not_or] at h
      simpa using Ne.symm h.1
    rw [if_neg (by simp [hb])]
    rw [ih (by simp only [List.map_cons, List.mem_cons, not_or] at h; exact h.2)]

/-- C6: `addObservations` fails with a `not found` error iff some requested
entity name is absent, and on failure the persisted graph is unchanged (the
thrown error skips `saveGraph`); the delete operations, `getNeighbors`,
`findPath`, and `openNodes` treat absent names as silent no-ops or empty
results, never as errors. -/
theorem C6_addObservations_strictness (g : Graph) (reqs : List ObsRequest) :
    ((∃ msg, addObservations g reqs = .error msg) ↔
      ∃ r ∈ reqs, g.entities.find? (fun e => e.name == r.entityName) = none) ∧
    (∀ msg, addObservations g reqs = .error msg →
      addObservationsPersisted g reqs = g) ∧
    (∀ (nm : Str) (dir : Direction) (rt : Option Str),
      mapGet g nm = none → getNeighbors g nm dir rt = []) ∧
    (∀ (a b : Str) (d : Nat), mapGet g a = none ∨ mapGet g b = none →
      findPath g a b d = none) ∧
    (∀ names : List Str, (∀ n ∈ names, n ∉ namesOf g) →
      (∀ r ∈ g.relations, r.from_ ∉ names ∧ r.to_ ∉ names) →
      deleteEntities g names = g) ∧
    (∀ dels : List ObsDeletion, (∀ d ∈ dels, d.entityName ∉ namesOf g) →
      deleteObservations g dels = g) ∧
    (∀ rels : List Relation, (∀ r ∈ g.relations, ∀ d ∈ rels,
      ¬(r.from_ = d.from_ ∧ r.to_ = d.to_ ∧ r.relationType = d.relationType)) →
      deleteRelations g rels = g) ∧
    (∀ names : List Str, (∀ n ∈ names, n ∉ namesOf g) →
      openNodes g names = ⟨[], []⟩) := by
  refine ⟨?_, ?_, ?_, ?_, ?_, ?_, ?_, ?_⟩
  · unfold addObservations
    rw [← addObsLoop_error_iff reqs g.entities]
    constructor
    · rintro ⟨msg, hmsg⟩
      cases h1 : addObsLoop g.entities reqs with
      | error e => exact ⟨e, rfl⟩
      | ok p =>
        obtain ⟨es3, results⟩ := p
        rw [h1] at hmsg
        exact Except.noConfusion hmsg
    · rintro ⟨msg, hmsg⟩
      rw [hmsg]
      exact ⟨msg, rfl⟩
  · intro msg h
    simp [addObservationsPersisted, h]
  · intro nm dir rt h
    unfold getNeighbors
    rw [if_pos (by rw [h]; rfl)]
  · intro a b d h
    unfold findPath
    rcases h with h | h <;> rw [if_pos (by rw [h]; simp)]
  · intro names h1 h2
    obtain ⟨es, rels⟩ := g
    unfold deleteEntities
    simp only [Graph.mk.injEq]
    constructor
    · refine List.filter_eq_self.mpr ?_
      intro e he
      simp only [Bool.not_eq_true']
      rw [contains_eq_mem]
      simp only [decide_eq_false_iff_not]
      intro hc
      exact h1 e.name hc (List.mem_map_of_mem Entity.name he)
    · refine List.filter_eq_self.mpr ?_
      intro r hr
      obtain ⟨hf, ht⟩ := h2 r hr
      simp only [Bool.and_eq_true, Bool.not_eq_true']
      rw [contains_eq_mem, contains_eq_mem]
      simp [hf, ht]
  · intro dels h
    obtain ⟨es, rels⟩ := g
    unfold deleteObservations
    simp only [Graph.mk.injEq, and_true]
    have : ∀ (ds : List ObsDeletion), (∀ d ∈ ds, d.entityName ∉ es.map Entity.name) →
        ds.foldl (fun es2 d => updateFirst es2 d.entityName
          (fun e => { e with observations :=
            e.observations.filter (fun o => !d.observations.contains o) })) es = es := by
      intro ds
      induction ds with
      | nil => intro _; rfl
      | cons d rest ih =>
        intro hd
        rw [List.foldl_cons, updateFirst_noop _ _ _ (hd d (List.mem_cons_self _ _)),
          ih (fun d2 hd2 => hd d2 (List.mem_cons_of_mem _ hd2))]
    exact this dels h
  · intro rels h
    obtain ⟨es, grels⟩ := g
    unfold deleteRelations
    simp only [Graph.mk.injEq, true_and]
    refine List.filter_eq_self.mpr ?_
    intro r hr
    simp only [Bool.not_eq_true', List.any_eq_false]
    intro d hd
    have := h r hr d hd
    simp only [Bool.and_eq_true, beq_iff_eq]
    intro hc
    exact this ⟨hc.1.1, hc.1.2, hc.2⟩
  · intro names h
    obtain ⟨es, rels⟩ := g
    have hent : es.filter (fun e => names.contains e.name) = [] := by
      refine List.filter_eq_nil_iff.mpr ?_
      intro e he
      rw [contains_eq_mem]
      simp only [decide_eq_true_eq]
      intro hc
      exact h e.name hc (List.mem_map_of_mem Entity.name he)
    simp only [openNodes]
    rw [hent]
    simp

/-- Witness for C6 at a concrete input: requesting the absent entity `f`
makes `addObservations` fail with an error. -/
theorem C6_witness :
    ∃ msg, addObservations ⟨[⟨['e'], ['t'], []⟩], []⟩ [⟨['f'], [['x']]⟩] =
      .error msg :=
  (C6_addObservations_strictness ⟨[⟨['e'], ['t'], []⟩], []⟩ [⟨['f'], [['x']]⟩]).1.mpr
    ⟨⟨['f'], [['x']]⟩, by decide, by decide⟩

-- ==================== C9: persistence round-trip ====================

theorem hexVal_hexDigitChar (n : Nat) (h : n < 16) :
    hexVal (hexDigitChar n) = some n := by
  interval_cases n <;> decide

theorem parse_escaped (s rest : Str) :
    parseJString (s.flatMap escapeChar ++ '"' :: rest) = some (s, rest) := by
  induction s with
  | nil =>
    rw [parseJString.eq_def]
    simp
  | cons c t ih =>
    rw [List.flatMap_cons, List.append_assoc]
    by_cases h1 : c = '"'
    · subst h1
      rw [show escapeChar '"' = ['\\', '"'] from rfl, List.cons_append,
        List.cons_append, List.nil_append, parseJString.eq_def]
      simp [ih]
    by_cases h2 : c = '\\'
    · subst h2
      rw [show escapeChar '\\' = ['\\', '\\'] from rfl, List.cons_append,
        List.cons_append, List.nil_append, parseJString.eq_def]
      simp [ih]
    by_cases h3 : c = '\x08'
    · subst h3
      rw [show escapeChar '\x08' = ['\\', 'b'] from rfl, List.cons_append,
        List.cons_append, List.nil_append, parseJString.eq_def]
      simp [ih]
    by_cases h4 : c = '\x09'
    · subst h4
      rw [show escapeChar '\x09' = ['\\', 't'] from rfl, List.cons_append,
        List.cons_append, List.nil_append, parseJString.eq_def]
      simp [ih]
    by_cases h5 : c = '\x0a'
    · subst h5
      rw [show escapeChar '\x0a' = ['\\', 'n'] from rfl, List.cons_append,
        List.cons_append, List.nil_append, parseJString.eq_def]
      simp [ih]
    by_cases h6 : c = '\x0c'
    · subst h6
      rw [show escapeChar '\x0c' = ['\\', 'f'] from rfl, List.cons_append,
        List.cons_append, List.nil_append, parseJString.eq_def]
      simp [ih]
    by_cases h7 : c = '\x0d'
    · subst h7
      rw [show escapeChar '\x0d' = ['\\', 'r'] from rfl, List.cons_append,
        List.cons_append, List.nil_append, parseJString.eq_def]
      simp [ih]
    by_cases h8 : c.toNat < 32
    · have henc : escapeChar c =
          ['\\', 'u', '0', '0', hexDigitChar (c.toNat / 16), hexDigitChar (c.toNat % 16)] := by
        simp [escapeChar, h1, h2, h3, h4, h5, h6, h7, h8]
      rw [henc]
      have hhi : hexVal (hexDigitChar (c.toNat / 16)) = some (c.toNat / 16) :=
        hexVal_hexDigitChar _ (by omega)
      have hlo : hexVal (hexDigitChar (c.toNat % 16)) = some (c.toNat % 16) :=
        hexVal_hexDigitChar _ (by omega)
      have hchar : Char.ofNat (c.toNat / 16 * 16 + c.toNat % 16) = c := by
        have harith : c.toNat / 16 * 16 + c.toNat % 16 = c.toNat := by omega
        rw [harith]
        exact Char.ofNat_toNat c
      have h0 : hexVal '0' = some 0 := by decide
      simp only [List.cons_append, List.nil_append]
      rw [parseJString.eq_def]
      simp [h0, hhi, hlo, ih, hchar]
    · have henc : escapeChar c = [c] := by
        simp [escapeChar, h1, h2, h3, h4, h5, h6, h7, h8]
      rw [henc, List.cons_append, List.nil_append, parseJString.eq_def]
      simp [h1, h2, ih]

theorem startsWithStr_head_same (c : Char) (l : Str) :
    startsWithStr (c :: l) [c] = true := by
  simp [startsWithStr]

theorem startsWithStr_head_diff (c d : Char) (l : Str) (h : d ≠ c) :
    startsWithStr (c :: l) [d] = false := by
  simp [startsWithStr]
  intro hc
  exact absurd hc h

theorem parseVal_encodeStr (fuel : Nat) (s rest : Str) :
    parseVal (fuel + 1) (encodeStr s ++ rest) = some (.jstr s, rest) := by
  rw [show encodeStr s ++ rest = '"' :: (s.flatMap escapeChar ++ '"' :: rest) by
    simp [encodeStr]]
  rw [parseVal.eq_def]
  simp [parse_escaped]

theorem intercalate_cons_cons (s a b : Str) (l : List Str) :
    List.intercalate s (a :: b :: l) = a ++ s ++ List.intercalate s (b :: l) := by
  simp [List.intercalate, List.intersperse_cons_cons]

theorem intercalate_single (s a : Str) : List.intercalate s [a] = a := by
  simp [List.intercalate]

theorem length_le_intercalate (xs : List Str) (h : ∀ x ∈ xs, 1 ≤ x.length) :
    xs.length ≤ (List.intercalate [','] xs).length := by
  induction xs with
  | nil => simp
  | cons a t ih =>
    cases t with
    | nil =>
      rw [intercalate_single]
      simpa using h a (by simp)
    | cons b t2 =>
      rw [intercalate_cons_cons]
      have h1 := h a (by simp)
      have h2 := ih (fun x hx => h x (List.mem_cons_of_mem _ hx))
      simp only [List.length_append, List.length_cons] at h2 ⊢
      omega

theorem intercalate_cons_eq (s a : Str) (l : List Str) :
    ∃ post, List.intercalate s (a :: l) = a ++ post := by
  cases l with
  | nil => exact ⟨[], by rw [intercalate_single]; simp⟩
  | cons b t =>
    exact ⟨s ++ List.intercalate s (b :: t), by rw [intercalate_cons_cons]; simp⟩

theorem parseElems_encode (pv : Str → Option (JVal × Str))
    (hpv : ∀ s r, pv (encodeStr s ++ r) = some (.jstr s, r)) :
    ∀ (l : List Str) (fuel : Nat) (rest : Str), l ≠ [] → l.length ≤ fuel →
      parseElemsAux pv fuel (List.intercalate [','] (l.map encodeStr) ++ ']' :: rest) =
        some (l.map JVal.jstr, rest) := by
  intro l
  induction l with
  | nil =>
    intro fuel rest hne _
    exact absurd rfl hne
  | cons a t ih =>
    intro fuel rest _ hlen
    cases fuel with
    | zero => simp at hlen
    | succ f =>
      cases t with
      | nil =>
        rw [List.map_cons, List.map_nil, intercalate_single, parseElemsAux.eq_def]
        simp [hpv, startsWithStr_head_same]
      | cons b t2 =>
        rw [List.map_cons, List.map_cons, intercalate_cons_cons]
        have hlen2 : (b :: t2).length ≤ f := by
          simp only [List.length_cons] at hlen ⊢
          omega
        have recur := ih f rest (by simp) hlen2
        rw [List.map_cons] at recur
        have hdiff : startsWithStr
            (',' :: (List.intercalate [','] (encodeStr b :: t2.map encodeStr) ++
              ']' :: rest)) [']'] = false :=
          startsWithStr_head_diff _ _ _ (by decide)
        rw [parseElemsAux.eq_def]
        simp [hpv, hdiff, startsWithStr_head_same, recur]

theorem encodeStr_len_pos (s : Str) : 1 ≤ (encodeStr s).length := by
  simp [encodeStr]

theorem parseVal_encodeStrList (fuel : Nat) (l : List Str) (rest : Str) :
    parseVal (fuel + 2) (encodeStrList l ++ rest) =
      some (.jarr (l.map .jstr), rest) := by
  cases l with
  | nil =>
    rw [show encodeStrList [] ++ rest = '[' :: ']' :: rest by
      simp [encodeStrList, List.intercalate]]
    rw [parseVal.eq_def]
    simp [startsWithStr_head_same]
  | cons a t =>
    obtain ⟨post, hpost⟩ := intercalate_cons_eq [','] (encodeStr a) (t.map encodeStr)
    rw [show encodeStrList (a :: t) ++ rest =
        '[' :: (List.intercalate [','] ((a :: t).map encodeStr) ++ ']' :: rest) by
      simp [encodeStrList]]
    have hlen : (a :: t).length ≤
        (List.intercalate [','] ((a :: t).map encodeStr) ++ ']' :: rest).length := by
      have hbound := length_le_intercalate ((a :: t).map encodeStr) (by
        intro x hx
        obtain ⟨y, _, rfl⟩ := List.mem_map.mp hx
        exact encodeStr_len_pos y)
      simp only [List.length_map] at hbound
      simp only [List.length_append]
      omega
    have h2 := parseElems_encode (parseVal (fuel + 1))
      (fun s r => parseVal_encodeStr fuel s r) (a :: t)
      ((List.intercalate [','] ((a :: t).map encodeStr) ++ ']' :: rest).length)
      rest (by simp) hlen
    have h1 : startsWithStr
        (List.intercalate [','] ((a :: t).map encodeStr) ++ ']' :: rest) [']'] =
          false := by
      rw [List.map_cons, hpost]
      simp [encodeStr, startsWithStr]
    rw [List.map_cons] at h1 h2
    simp only [List.length_append, List.length_cons] at h2
    rw [parseVal.eq_def]
    simp [h1, h2]

theorem parseFields_step (pv : Str → Option (JVal × Str)) (f : Nat)
    (k venc tail s4 : Str) (v : JVal) (fs : List (Str × JVal))
    (hv : pv (venc ++ ',' :: tail) = some (v, ',' :: tail))
    (hrec : parseFieldsAux pv f tail = some (fs, s4)) :
    parseFieldsAux pv (f + 1) (encodeStr k ++ ':' :: (venc ++ ',' :: tail)) =
      some ((k, v) :: fs, s4) := by
  have hdiff : startsWithStr (',' :: tail) ['\x7d'] = false :=
    startsWithStr_head_diff _ _ _ (by decide)
  rw [parseFieldsAux.eq_def]
  simp [encodeStr, parse_escaped, hv, hrec, hdiff, startsWithStr_head_same]

theorem parseFields_last (pv : Str → Option (JVal × Str)) (f : Nat)
    (k venc rest : Str) (v : JVal)
    (hv : pv (venc ++ '\x7d' :: rest) = some (v, '\x7d' :: rest)) :
    parseFieldsAux pv (f + 1) (encodeStr k ++ ':' :: (venc ++ '\x7d' :: rest)) =
      some ([(k, v)], rest) := by
  rw [parseFieldsAux.eq_def]
  simp [encodeStr, parse_escaped, hv, startsWithStr_head_same]

theorem parseFields_step2 (pv : Str → Option (JVal × Str)) (n : Nat)
    (hn : 1 ≤ n) (k venc tail s4 : Str) (v : JVal) (fs : List (Str × JVal))
    (hv : pv (venc ++ ',' :: tail) = some (v, ',' :: tail))
    (hrec : parseFieldsAux pv (n - 1) tail = some (fs, s4)) :
    parseFieldsAux pv n (encodeStr k ++ ':' :: (venc ++ ',' :: tail)) =
      some ((k, v) :: fs, s4) := by
  cases n with
  | zero => omega
  | succ f => exact parseFields_step pv f k venc tail s4 v fs hv (by simpa using hrec)

theorem parseFields_last2 (pv : Str → Option (JVal × Str)) (n : Nat)
    (hn : 1 ≤ n) (k venc rest : Str) (v : JVal)
    (hv : pv (venc ++ '\x7d' :: rest) = some (v, '\x7d' :: rest)) :
    parseFieldsAux pv n (encodeStr k ++ ':' :: (venc ++ '\x7d' :: rest)) =
      some ([(k, v)], rest) := by
  cases n with
  | zero => omega
  | succ f => exact parseFields_last pv f k venc rest v hv

theorem parseFields_four (pv : Str → Option (JVal × Str))
    (k1 k2 k3 k4 e1 e2 e3 e4 rest : Str) (v1 v2 v3 v4 : JVal)
    (hv1 : ∀ r, pv (e1 ++ r) = some (v1, r))
    (hv2 : ∀ r, pv (e2 ++ r) = some (v2, r))
    (hv3 : ∀ r, pv (e3 ++ r) = some (v3, r))
    (hv4 : ∀ r, pv (e4 ++ r) = some (v4, r))
    (n : Nat) (hn : 4 ≤ n) :
    parseFieldsAux pv n
      (encodeStr k1 ++ ':' :: (e1 ++ ',' :: (encodeStr k2 ++ ':' :: (e2 ++ ',' ::
        (encodeStr k3 ++ ':' :: (e3 ++ ',' :: (encodeStr k4 ++ ':' ::
        (e4 ++ '\x7d' :: rest)))))))) =
      some ([(k1, v1), (k2, v2), (k3, v3), (k4, v4)], rest) := by
  have h4 := parseFields_last2 pv (n - 1 - 1 - 1) (by omega) k4 e4 rest v4 (hv4 _)
  have h3 := parseFields_step2 pv (n - 1 - 1) (by omega) k3 e3 _ rest v3 _ (hv3 _) h4
  have h2 := parseFields_step2 pv (n - 1) (by omega) k2 e2 _ rest v2 _ (hv2 _) h3
  exact parseFields_step2 pv n (by omega) k1 e1 _ rest v1 _ (hv1 _) h2

theorem startsWithStr_encodeStr_append (k tail : Str) (d : Char) (h : d ≠ '"') :
    startsWithStr (encodeStr k ++ tail) [d] = false := by
  simp [encodeStr, startsWithStr, h]

theorem parseVal_obj (fuel : Nat) (body rest : Str) (fs : List (Str × JVal))
    (hne : startsWithStr body ['\x7d'] = false)
    (hfields : parseFieldsAux (parseVal fuel) body.length body = some (fs, rest)) :
    parseVal (fuel + 1) ('\x7b' :: body) = some (.jobj fs, rest) := by
  rw [parseVal.eq_def]
  simp [hne, hfields]

theorem parseVal_entityLine (fuel : Nat) (e : Entity) (rest : Str) :
    parseVal (fuel + 3) (encodeEntityLine e ++ rest) = some (entityJ e, rest) := by
  have hline : encodeEntityLine e ++ rest = '\x7b' ::
      (encodeStr ("type".toList) ++ ':' :: (encodeStr ("entity".toList) ++ ',' ::
        (encodeStr ("name".toList) ++ ':' :: (encodeStr e.name ++ ',' ::
        (encodeStr ("entityType".toList) ++ ':' :: (encodeStr e.entityType ++ ',' ::
        (encodeStr ("observations".toList) ++ ':' ::
          (encodeStrList e.observations ++ '\x7d' :: rest)))))))) := by
    simp [encodeEntityLine]
  rw [hline]
  refine parseVal_obj (fuel + 2) _ rest _ ?_ ?_
  · exact startsWithStr_encodeStr_append _ _ _ (by decide)
  · refine parseFields_four (parseVal (fuel + 2)) _ _ _ _ _ _ _ _ rest _ _ _ _
      (fun r => parseVal_encodeStr (fuel + 1) _ r)
      (fun r => parseVal_encodeStr (fuel + 1) _ r)
      (fun r => parseVal_encodeStr (fuel + 1) _ r)
      (fun r => parseVal_encodeStrList fuel _ r)
      _ ?_
    simp only [List.length_append, List.length_cons]
    omega

theorem parseVal_relationLine (fuel : Nat) (r : Relation) (rest : Str) :
    parseVal (fuel + 3) (encodeRelationLine r ++ rest) = some (relationJ r, rest) := by
  have hline : encodeRelationLine r ++ rest = '\x7b' ::
      (encodeStr ("type".toList) ++ ':' :: (encodeStr ("relation".toList) ++ ',' ::
        (encodeStr ("from".toList) ++ ':' :: (encodeStr r.from_ ++ ',' ::
        (encodeStr ("to".toList) ++ ':' :: (encodeStr r.to_ ++ ',' ::
        (encodeStr ("relationType".toList) ++ ':' ::
          (encodeStr r.relationType ++ '\x7d' :: rest)))))))) := by
    simp [encodeRelationLine]
  rw [hline]
  refine parseVal_obj (fuel + 2) _ rest _ ?_ ?_
  · exact startsWithStr_encodeStr_append _ _ _ (by decide)
  · refine parseFields_four (parseVal (fuel + 2)) _ _ _ _ _ _ _ _ rest _ _ _ _
      (fun r2 => parseVal_encodeStr (fuel + 1) _ r2)
      (fun r2 => parseVal_encodeStr (fuel + 1) _ r2)
      (fun r2 => parseVal_encodeStr (fuel + 1) _ r2)
      (fun r2 => parseVal_encodeStr (fuel + 1) _ r2)
      _ ?_
    simp only [List.length_append, List.length_cons]
    omega

theorem jsonParse_entityLine (e : Entity) :
    jsonParse (encodeEntityLine e) = some (entityJ e) := by
  have h := parseVal_entityLine ((encodeEntityLine e).length) e []
  rw [List.append_nil] at h
  unfold jsonParse
  rw [h]

theorem jsonParse_relationLine (r : Relation) :
    jsonParse (encodeRelationLine r) = some (relationJ r) := by
  have h := parseVal_relationLine ((encodeRelationLine r).length) r []
  rw [List.append_nil] at h
  unfold jsonParse
  rw [h]

theorem decodeStrList_map (l : List Str) : decodeStrList (l.map .jstr) = some l := by
  induction l with
  | nil => rfl
  | cons a t ih => simp [decodeStrList, ih]

theorem decodeEntity_entityJ (e : Entity) : decodeEntity (entityJ e) = some e := by
  have hnm : getField (entityJ e) ['n', 'a', 'm', 'e'] = some (.jstr e.name) := rfl
  have hty : getField (entityJ e) ['e', 'n', 't', 'i', 't', 'y', 'T', 'y', 'p', 'e'] =
      some (.jstr e.entityType) := rfl
  have hobs : getField (entityJ e)
      ['o', 'b', 's', 'e', 'r', 'v', 'a', 't', 'i', 'o', 'n', 's'] =
      some (.jarr (e.observations.map .jstr)) := rfl
  simp [decodeEntity, hnm, hty, hobs, decodeStrList_map]

theorem decodeRelation_relationJ (r : Relation) :
    decodeRelation (relationJ r) = some r := by
  have hf : getField (relationJ r) ['f', 'r', 'o', 'm'] = some (.jstr r.from_) := rfl
  have ht : getField (relationJ r) ['t', 'o'] = some (.jstr r.to_) := rfl
  have hrt : getField (relationJ r)
      ['r', 'e', 'l', 'a', 't', 'i', 'o', 'n', 'T', 'y', 'p', 'e'] =
      some (.jstr r.relationType) := rfl
  simp [decodeRelation, hf, ht, hrt]

theorem loadLine_entity (g : Graph) (e : Entity) :
    loadLine g (encodeEntityLine e) = { g with entities := g.entities ++ [e] } := by
  have htype : getField (entityJ e) ['t', 'y', 'p', 'e'] =
      some (.jstr ['e', 'n', 't', 'i', 't', 'y']) := rfl
  have hne : (['e', 'n', 't', 'i', 't', 'y'] : Str) ≠
      ['r', 'e', 'l', 'a', 't', 'i', 'o', 'n'] := by decide
  simp [loadLine, jsonParse_entityLine, htype, decodeEntity_entityJ, hne]

theorem loadLine_relation (g : Graph) (r : Relation) :
    loadLine g (encodeRelationLine r) = { g with relations := g.relations ++ [r] } := by
  have htype : getField (relationJ r) ['t', 'y', 'p', 'e'] =
      some (.jstr ['r', 'e', 'l', 'a', 't', 'i', 'o', 'n']) := rfl
  have hne : (['r', 'e', 'l', 'a', 't', 'i', 'o', 'n'] : Str) ≠
      ['e', 'n', 't', 'i', 't', 'y'] := by decide
  simp [loadLine, jsonParse_relationLine, htype, decodeRelation_relationJ, hne]

theorem hexDigitChar_ne_newline (n : Nat) (h : n < 16) : hexDigitChar n ≠ '\x0a' := by
  interval_cases n <;> decide

theorem newline_not_mem_escapeChar (c : Char) : '\x0a' ∉ escapeChar c := by
  unfold escapeChar
  split_ifs with h1 h2 h3 h4 h5 h6 h7 h8
  · decide
  · decide
  · decide
  · decide
  · decide
  · decide
  · decide
  · intro hmem
    simp only [List.mem_cons, List.not_mem_nil, or_false] at hmem
    rcases hmem with h | h | h | h | h | h
    · exact absurd h (by decide)
    · exact absurd h (by decide)
    · exact absurd h (by decide)
    · exact absurd h (by decide)
    · exact hexDigitChar_ne_newline _ (by omega) h.symm
    · exact hexDigitChar_ne_newline _ (by omega) h.symm
  · intro hmem
    simp only [List.mem_singleton] at hmem
    exact h5 hmem.symm

theorem newline_not_mem_encodeStr (s : Str) : '\x0a' ∉ encodeStr s := by
  intro h
  simp only [encodeStr, List.mem_cons, List.mem_append, List.mem_flatMap,
    List.mem_singleton] at h
  rcases h with h | ⟨a, _, ha⟩ | h
  · exact absurd h (by decide)
  · exact newline_not_mem_escapeChar a ha
  · exact absurd h (by decide)

theorem newline_not_mem_intercalate_comma (ls : List Str)
    (h : ∀ l ∈ ls, '\x0a' ∉ l) : '\x0a' ∉ List.intercalate [','] ls := by
  induction ls with
  | nil => simp [List.intercalate]
  | cons a t ih =>
    cases t with
    | nil =>
      rw [intercalate_single]
      exact h a (by simp)
    | cons b t2 =>
      rw [intercalate_cons_cons]
      intro hmem
      simp only [List.mem_append, List.mem_singleton] at hmem
      rcases hmem with (h1 | h1) | h1
      · exact h a (by simp) h1
      · exact absurd h1 (by decide)
      · exact ih (fun l hl => h l (List.mem_cons_of_mem _ hl)) h1

theorem newline_not_mem_encodeStrList (l : List Str) :
    '\x0a' ∉ encodeStrList l := by
  intro h
  simp only [encodeStrList, List.mem_cons, List.mem_append,
    List.mem_singleton] at h
  rcases h with h | h | h
  · exact absurd h (by decide)
  · exact newline_not_mem_intercalate_comma (l.map encodeStr)
      (by
        intro x hx
        obtain ⟨y, _, rfl⟩ := List.mem_map.mp hx
        exact newline_not_mem_encodeStr y) h
  · exact absurd h (by decide)

theorem newline_not_mem_encodeEntityLine (e : Entity) :
    '\x0a' ∉ encodeEntityLine e := by
  intro h
  simp only [encodeEntityLine, List.mem_cons, List.mem_append,
    List.mem_singleton, List.not_mem_nil, or_false] at h
  rcases h with h | h | h | h | h | h | h | h | h | h | h | h | h | h | h | h | h <;>
    first
      | exact absurd h (by decide)
      | exact newline_not_mem_encodeStr _ h
      | exact newline_not_mem_encodeStrList _ h

theorem newline_not_mem_encodeRelationLine (r : Relation) :
    '\x0a' ∉ encodeRelationLine r := by
  intro h
  simp only [encodeRelationLine, List.mem_cons, List.mem_append,
    List.mem_singleton, List.not_mem_nil, or_false] at h
  rcases h with h | h | h | h | h | h | h | h | h | h | h | h | h | h | h | h | h <;>
    first
      | exact absurd h (by decide)
      | exact newline_not_mem_encodeStr _ h

theorem trimWS_cons_nonblank (c : Char) (t : Str) (h : isWS c = false) :
    (trimWS (c :: t)).isEmpty = false := by
  unfold trimWS
  rw [List.dropWhile_cons, if_neg (by simp [h])]
  rcases hd : (c :: t).reverse.dropWhile isWS with _ | ⟨a, l⟩
  · exfalso
    have hall := List.dropWhile_eq_nil_iff.mp hd
    have hc := hall c (by simp)
    rw [h] at hc
    exact absurd hc (by decide)
  · simp [List.isEmpty_iff]

theorem foldl_loadLine_entities (es : List Entity) (g : Graph) :
    (es.map encodeEntityLine).foldl loadLine g =
      { g with entities := g.entities ++ es } := by
  induction es generalizing g with
  | nil => simp
  | cons e t ih =>
    simp only [List.map_cons, List.foldl_cons, loadLine_entity, ih]
    simp

theorem foldl_loadLine_relations (rs : List Relation) (g : Graph) :
    (rs.map encodeRelationLine).foldl loadLine g =
      { g with relations := g.relations ++ rs } := by
  induction rs generalizing g with
  | nil => simp
  | cons r t ih =>
    simp only [List.map_cons, List.foldl_cons, loadLine_relation, ih]
    simp

theorem loadGraph_saveGraph (g : Graph) : loadGraph (saveGraph g) = g := by
  unfold loadGraph saveGraph
  rcases hls : g.entities.map encodeEntityLine ++ g.relations.map encodeRelationLine
    with _ | ⟨a, ls⟩
  · obtain ⟨h1, h2⟩ := List.append_eq_nil.mp hls
    have he : g.entities = [] := List.map_eq_nil_iff.mp h1
    have hr : g.relations = [] := List.map_eq_nil_iff.mp h2
    have hg : g = ⟨[], []⟩ := by rw [← he, ← hr]
    rw [hg]
    rfl
  · have hx : ∀ l ∈ a :: ls, '\x0a' ∉ l := by
      intro l hl
      rw [← hls] at hl
      rcases List.mem_append.mp hl with hl | hl
      · obtain ⟨e, _, rfl⟩ := List.mem_map.mp hl
        exact newline_not_mem_encodeEntityLine e
      · obtain ⟨r, _, rfl⟩ := List.mem_map.mp hl
        exact newline_not_mem_encodeRelationLine r
    have hsplit := List.splitOn_intercalate (a :: ls) '\x0a' hx (by simp)
    rw [hsplit]
    have hfilter : (a :: ls).filter (fun line => !(trimWS line).isEmpty) = a :: ls := by
      apply List.filter_eq_self.mpr
      intro l hl
      rw [← hls] at hl
      rcases List.mem_append.mp hl with hl | hl
      · obtain ⟨e, _, rfl⟩ := List.mem_map.mp hl
        have h2 : (trimWS (encodeEntityLine e)).isEmpty = false :=
          trimWS_cons_nonblank '\x7b' _ (by decide)
        simp [h2]
      · obtain ⟨r, _, rfl⟩ := List.mem_map.mp hl
        have h2 : (trimWS (encodeRelationLine r)).isEmpty = false :=
          trimWS_cons_nonblank '\x7b' _ (by decide)
        simp [h2]
    rw [hfilter, ← hls, List.foldl_append, foldl_loadLine_entities,
      foldl_loadLine_relations]
    simp

-- ==================== C1: findPath BFS correctness ====================

theorem self_mem_reachSet (g : Graph) (s : Str) (n : Nat) :
    s ∈ reachSet g s n := by
  induction n with
  | zero => simp [reachSet]
  | succ n ih => simp only [reachSet, List.mem_append]; exact Or.inl ih

theorem reachSet_succ_of_mem (g : Graph) (s x : Str) (n : Nat)
    (h : x ∈ reachSet g s n) : x ∈ reachSet g s (n + 1) := by
  simp only [reachSet, List.mem_append]
  exact Or.inl h

theorem reachSet_mono (g : Graph) (s : Str) {m n : Nat} (h : m ≤ n) :
    ∀ x ∈ reachSet g s m, x ∈ reachSet g s n := by
  induction n with
  | zero =>
    intro x hx
    rw [Nat.le_zero.mp h] at hx
    exact hx
  | succ n ih =>
    intro x hx
    rcases Nat.lt_or_ge m (n + 1) with hm | hm
    · exact reachSet_succ_of_mem g s x n (ih (Nat.lt_succ_iff.mp hm) x hx)
    · rw [Nat.le_antisymm h hm] at hx
      exact hx

theorem reachSet_step (g : Graph) (s x y : Str) (n : Nat)
    (hx : x ∈ reachSet g s n) (hy : y ∈ bfsNbrs g x) :
    y ∈ reachSet g s (n + 1) := by
  simp only [reachSet, List.mem_append, List.mem_flatMap]
  exact Or.inr ⟨x, hx, hy⟩

theorem reachIn_succ {g : Graph} {n : Nat} {a b : Str}
    (h : ReachIn g n a b) : ReachIn g (n + 1) a b := by
  induction h with
  | refl n a => exact .refl (n + 1) a
  | step hnb _ ih => exact .step hnb ih

theorem reachIn_snoc {g : Graph} {n : Nat} {a b c : Str}
    (h : ReachIn g n a b) (hc : c ∈ bfsNbrs g b) : ReachIn g (n + 1) a c := by
  induction h with
  | refl n a => exact .step hc (.refl n c)
  | step hnb _ ih => exact .step hnb (ih hc)

theorem reachIn_of_mem_reachSet (g : Graph) (s : Str) :
    ∀ (n : Nat) (x : Str), x ∈ reachSet g s n → ReachIn g n s x := by
  intro n
  induction n with
  | zero =>
    intro x hx
    simp only [reachSet, List.mem_singleton] at hx
    subst hx
    exact .refl 0 _
  | succ n ih =>
    intro x hx
    simp only [reachSet, List.mem_append, List.mem_flatMap] at hx
    rcases hx with hx | ⟨z, hz, hnb⟩
    · exact reachIn_succ (ih x hx)
    · exact reachIn_snoc (ih z hz) hnb

theorem reachSet_shift (g : Graph) (a b : Str) (hnb : b ∈ bfsNbrs g a) :
    ∀ (m : Nat) (x : Str), x ∈ reachSet g b m → x ∈ reachSet g a (m + 1) := by
  intro m
  induction m with
  | zero =>
    intro x hx
    simp only [reachSet, List.mem_singleton] at hx
    subst hx
    exact reachSet_step g a a x 0 (self_mem_reachSet g a 0) hnb
  | succ k ih =>
    intro x hx
    simp only [reachSet, List.mem_append, List.mem_flatMap] at hx
    rcases hx with hx | ⟨z, hz, hzc⟩
    · exact reachSet_succ_of_mem g a x (k + 1) (ih x hx)
    · exact reachSet_step g a z x (k + 1) (ih z hz) hzc

theorem mem_reachSet_of_reachIn {g : Graph} {n : Nat} {s x : Str}
    (h : ReachIn g n s x) : x ∈ reachSet g s n := by
  induction h with
  | refl n a => exact self_mem_reachSet g a n
  | step hnb _ ih => exact reachSet_shift g _ _ hnb _ _ ih

theorem bfsLoop_zero (g : Graph) (T : Str) (D : Nat) (queue : List BfsEntry)
    (visited : List Str) : bfsLoop g T D 0 queue visited = none := rfl

theorem bfsLoop_nil (g : Graph) (T : Str) (D fuel : Nat) (visited : List Str) :
    bfsLoop g T D (fuel + 1) [] visited = none := rfl

theorem bfsLoop_cons (g : Graph) (T : Str) (D fuel : Nat) (current : BfsEntry)
    (rest : List BfsEntry) (visited : List Str) :
    bfsLoop g T D (fuel + 1) (current :: rest) visited =
      if current.name == T then
        some ⟨current.path.map (fun n => (mapGet g n).getD defaultEntity),
          current.relations, current.path.length - 1⟩
      else if decide (current.path.length > D) then
        bfsLoop g T D fuel rest visited
      else if visited.contains current.name then
        bfsLoop g T D fuel rest visited
      else
        bfsLoop g T D fuel
          (rest ++ (adjacencyList g current.name).filterMap
            (fun nb =>
              if (current.name :: visited).contains nb.1 then none
              else some (BfsEntry.mk nb.1 (current.path ++ [nb.1])
                (current.relations ++ [nb.2]))))
          (current.name :: visited) := rfl

theorem pairwise_of_forall_mem {α : Type} (R : α → α → Prop) (l : List α)
    (h : ∀ a ∈ l, ∀ b ∈ l, R a b) : l.Pairwise R := by
  induction l with
  | nil => exact List.Pairwise.nil
  | cons a t ih =>
    exact List.Pairwise.cons (fun b hb => h a (by simp) b (by simp [hb]))
      (ih fun x hx y hy => h x (by simp [hx]) y (by simp [hy]))

theorem adjacencyList_nil_of_not_entity (g : Graph) (v : Str)
    (h : v ∉ g.entities.map (fun e => e.name)) : adjacencyList g v = [] := by
  have hany : g.entities.any (fun e => e.name == v) = false := by
    rw [List.any_eq_false]
    intro e he hb
    exact h (List.mem_map.mpr ⟨e, he, beq_iff_eq.mp hb⟩)
  unfold adjacencyList
  rw [hany]
  simp

theorem measure_sub_le (g : Graph) (names vis : List Str) (v0 : Str) :
    ((names.filter (fun n => !(v0 :: vis).contains n)).map
      (fun n => (adjacencyList g n).length + 1)).sum ≤
    ((names.filter (fun n => !vis.contains n)).map
      (fun n => (adjacencyList g n).length + 1)).sum := by
  apply List.Sublist.sum_le_sum
  · apply List.Sublist.map
    apply List.monotone_filter_right
    intro n hn
    simp only [List.contains_cons, Bool.not_or, Bool.and_eq_true] at hn
    exact hn.2
  · intro a _
    exact Nat.zero_le a

theorem measure_sub_lt (g : Graph) (names vis : List Str) (v0 : Str)
    (hmem : v0 ∈ names) (hnv : vis.contains v0 = false) :
    ((names.filter (fun n => !(v0 :: vis).contains n)).map
      (fun n => (adjacencyList g n).length + 1)).sum +
      ((adjacencyList g v0).length + 1) ≤
    ((names.filter (fun n => !vis.contains n)).map
      (fun n => (adjacencyList g n).length + 1)).sum := by
  have hv0nm : v0 ∉ vis := by
    rw [contains_eq_mem] at hnv
    simpa using hnv
  induction names with
  | nil => cases hmem
  | cons a t ih =>
    rcases List.mem_cons.mp hmem with h | h
    · subst h
      rw [List.filter_cons_of_neg (by simp),
        List.filter_cons_of_pos (by simp [hv0nm])]
      have hle := measure_sub_le g t vis v0
      simp only [List.map_cons, List.sum_cons]
      omega
    · by_cases hav : a = v0
      · subst hav
        rw [List.filter_cons_of_neg (by simp),
          List.filter_cons_of_pos (by simp [hv0nm])]
        have hle := measure_sub_le g t vis a
        simp only [List.map_cons, List.sum_cons]
        omega
      · by_cases ha : a ∈ vis
        · rw [List.filter_cons_of_neg (by simp [List.mem_cons, ha]),
            List.filter_cons_of_neg (by simp [ha])]
          exact ih h
        · rw [List.filter_cons_of_pos (by simp [List.mem_cons, hav, ha]),
            List.filter_cons_of_pos (by simp [ha])]
          have := ih h
          simp only [List.map_cons, List.sum_cons]
          omega

/-- Every result the BFS loop returns is a genuine traversal walk from the
start: its reported length is a distance at which the target is reachable,
and it never exceeds `maxDepth`. -/
theorem bfsLoop_sound (g : Graph) (A T : Str) (D : Nat) :
    ∀ (fuel : Nat) (queue : List BfsEntry) (visited : List Str) (res : PathResult),
      (∀ e ∈ queue, e.path ≠ [] ∧ e.name ∈ reachSet g A (e.path.length - 1)) →
      (∀ e ∈ queue, e.path.length - 1 ≤ D) →
      bfsLoop g T D fuel queue visited = some res →
      T ∈ reachSet g A res.length ∧ res.length ≤ D := by
  intro fuel
  induction fuel with
  | zero =>
    intro queue visited res _ _ heq
    rw [bfsLoop_zero] at heq
    exact Option.noConfusion heq
  | succ fuel ih =>
    intro queue visited res hvalid hbound heq
    cases queue with
    | nil =>
      rw [bfsLoop_nil] at heq
      exact Option.noConfusion heq
    | cons current rest =>
      rw [bfsLoop_cons] at heq
      by_cases h1 : (current.name == T) = true
      · rw [if_pos h1] at heq
        injection heq with heq
        obtain ⟨hpne, hreach⟩ := hvalid current (List.mem_cons_self current rest)
        have hTname : current.name = T := by simpa using h1
        have hlen : res.length = current.path.length - 1 := by rw [← heq]
        rw [hlen]
        exact ⟨hTname ▸ hreach, hbound current (List.mem_cons_self current rest)⟩
      · rw [if_neg h1] at heq
        by_cases h2 : (decide (current.path.length > D)) = true
        · rw [if_pos h2] at heq
          exact ih rest visited res
            (fun e he => hvalid e (List.mem_cons_of_mem _ he))
            (fun e he => hbound e (List.mem_cons_of_mem _ he)) heq
        · rw [if_neg h2] at heq
          by_cases h3 : (visited.contains current.name) = true
          · rw [if_pos h3] at heq
            exact ih rest visited res
              (fun e he => hvalid e (List.mem_cons_of_mem _ he))
              (fun e he => hbound e (List.mem_cons_of_mem _ he)) heq
          · rw [if_neg h3] at heq
            have hdep : current.path.length ≤ D := by
              rcases Nat.le_total current.path.length D with h | h
              · exact h
              · rcases Nat.eq_or_lt_of_le h with h | h
                · omega
                · exact absurd (by simpa using h) h2
            obtain ⟨hpne, hreach⟩ := hvalid current (List.mem_cons_self current rest)
            have hplen : 1 ≤ current.path.length :=
              List.length_pos.mpr hpne
            refine ih _ _ res ?_ ?_ heq
            · intro e he
              rcases List.mem_append.mp he with he | he
              · exact hvalid e (List.mem_cons_of_mem _ he)
              · obtain ⟨nb, hnb, hf⟩ := List.mem_filterMap.mp he
                by_cases hc : ((current.name :: visited).contains nb.1) = true
                · rw [if_pos hc] at hf
                  exact Option.noConfusion hf
                · rw [if_neg hc] at hf
                  injection hf with hf
                  subst hf
                  constructor
                  · simp
                  · have hstep : nb.1 ∈ bfsNbrs g current.name :=
                      List.mem_map_of_mem Prod.fst hnb
                    have := reachSet_step g A current.name nb.1
                      (current.path.length - 1) hreach hstep
                    simp only [List.length_append, List.length_cons,
                      List.length_nil]
                    have harith : current.path.length + 1 - 1 =
                        (current.path.length - 1) + 1 := by omega
                    rw [harith]
                    exact this
            · intro e he
              rcases List.mem_append.mp he with he | he
              · exact hbound e (List.mem_cons_of_mem _ he)
              · obtain ⟨nb, hnb, hf⟩ := List.mem_filterMap.mp he
                by_cases hc : ((current.name :: visited).contains nb.1) = true
                · rw [if_pos hc] at hf
                  exact Option.noConfusion hf
                · rw [if_neg hc] at hf
                  injection hf with hf
                  subst hf
                  simp only [List.length_append, List.length_cons, List.length_nil]
                  omega

/-- Extracting a queue-level witness for the remaining distance to the
target from the mixed queue/visited witness invariant of the BFS. -/
theorem bfs_extract (g : Graph) (T : Str) (D d : Nat) (hdD : d ≤ D)
    (queue : List BfsEntry) (visited : List Str) (vd : Str → Nat)
    (hT : T ∉ visited)
    (hclose : ∀ v ∈ visited, vd v < D → ∀ y ∈ bfsNbrs g v,
      (y ∈ visited ∧ vd y ≤ vd v + 1) ∨
      (∃ e ∈ queue, e.name = y ∧ e.path.length - 1 ≤ vd v + 1) ∨
      (y ≠ T ∧ D ≤ vd v + 1)) :
    ∀ (m : Nat) (v : Str), v ∈ visited → vd v + m ≤ d → ReachIn g m v T →
      ∃ e ∈ queue, ∃ m2, (e.path.length - 1) + m2 ≤ d ∧ ReachIn g m2 e.name T := by
  intro m
  induction m with
  | zero =>
    intro v hv _ hr
    cases hr with
    | refl => exact absurd hv hT
  | succ n ih =>
    intro v hv hle hr
    cases hr with
    | refl => exact absurd hv hT
    | step hy hr2 =>
      rename_i y
      have hvd : vd v < D := by omega
      rcases hclose v hv hvd y hy with ⟨hyv, hyd⟩ | ⟨e, he, hname, hlev⟩ | ⟨hyT, hD⟩
      · exact ih y hyv (by omega) hr2
      · exact ⟨e, he, n, by omega, hname ▸ hr2⟩
      · exfalso
        have hn : n = 0 := by omega
        subst hn
        cases hr2 with
        | refl => exact hyT rfl

/-- Completeness and level-optimality of the BFS loop: from a state
satisfying the queue/visited invariants in which the witness invariant
places the target within total distance `d ≤ maxDepth`, the loop returns
some result of length at most `d`. -/
theorem bfsLoop_complete (g : Graph) (T : Str) (D d : Nat) (hdD : d ≤ D) :
    ∀ (fuel : Nat) (queue : List BfsEntry) (visited : List Str) (vd : Str → Nat),
      bfsMeasure g queue visited ≤ fuel →
      (∀ e ∈ queue, e.path ≠ []) →
      List.Pairwise (fun a b => a.path.length - 1 ≤ b.path.length - 1) queue →
      (∀ e1 ∈ queue, ∀ e2 ∈ queue,
        e2.path.length - 1 ≤ (e1.path.length - 1) + 1) →
      T ∉ visited →
      (∀ v ∈ visited, ∀ e ∈ queue, vd v ≤ e.path.length - 1) →
      (∀ v ∈ visited, vd v < D → ∀ y ∈ bfsNbrs g v,
        (y ∈ visited ∧ vd y ≤ vd v + 1) ∨
        (∃ e ∈ queue, e.name = y ∧ e.path.length - 1 ≤ vd v + 1) ∨
        (y ≠ T ∧ D ≤ vd v + 1)) →
      (∃ m, (∃ e ∈ queue, (e.path.length - 1) + m ≤ d ∧ ReachIn g m e.name T) ∨
            (∃ v ∈ visited, vd v + m ≤ d ∧ ReachIn g m v T)) →
      ∃ res, bfsLoop g T D fuel queue visited = some res ∧ res.length ≤ d := by
  intro fuel
  induction fuel with
  | zero =>
    intro queue visited vd hfuel hP hsort hB hT hHD hHC hHW
    exfalso
    have hq : queue = [] := by
      have hl : queue.length = 0 := by
        unfold bfsMeasure at hfuel
        omega
      exact List.length_eq_zero.mp hl
    subst hq
    obtain ⟨m, hw⟩ := hHW
    rcases hw with ⟨e, he, _⟩ | ⟨v, hv, hb, hr⟩
    · exact List.not_mem_nil e he
    · obtain ⟨e, he, _⟩ := bfs_extract g T D d hdD [] visited vd hT hHC m v hv hb hr
      exact List.not_mem_nil e he
  | succ fuel ih =>
    intro queue visited vd hfuel hP hsort hB hT hHD hHC hHW
    cases queue with
    | nil =>
      exfalso
      obtain ⟨m, hw⟩ := hHW
      rcases hw with ⟨e, he, _⟩ | ⟨v, hv, hb, hr⟩
      · exact List.not_mem_nil e he
      · obtain ⟨e, he, _⟩ := bfs_extract g T D d hdD [] visited vd hT hHC m v hv hb hr
        exact List.not_mem_nil e he
    | cons current rest =>
      have hqw : ∃ e ∈ current :: rest, ∃ m2,
          (e.path.length - 1) + m2 ≤ d ∧ ReachIn g m2 e.name T := by
        obtain ⟨m, hw⟩ := hHW
        rcases hw with ⟨e, he, hb, hr⟩ | ⟨v, hv, hb, hr⟩
        · exact ⟨e, he, m, hb, hr⟩
        · exact bfs_extract g T D d hdD _ visited vd hT hHC m v hv hb hr
      obtain ⟨ew, hew, mw, hbw, hrw⟩ := hqw
      have hhead_le : current.path.length - 1 ≤ ew.path.length - 1 := by
        rcases List.mem_cons.mp hew with h | h
        · rw [h]
        · exact (List.pairwise_cons.mp hsort).1 ew h
      rw [bfsLoop_cons]
      by_cases h1 : (current.name == T) = true
      · rw [if_pos h1]
        refine ⟨_, rfl, ?_⟩
        show current.path.length - 1 ≤ d
        omega
      · rw [if_neg h1]
        have hTne : current.name ≠ T := by simpa using h1
        by_cases h2 : (decide (current.path.length > D)) = true
        · rw [if_pos h2]
          have hDlt : D < current.path.length := of_decide_eq_true h2
          have hewrest : ew ∈ rest := by
            rcases List.mem_cons.mp hew with h | h
            · exfalso
              have hm0 : mw = 0 := by
                rw [h] at hbw
                omega
              subst hm0
              rw [h] at hrw
              cases hrw with
              | refl => exact hTne rfl
            · exact h
          apply ih rest visited vd
          · unfold bfsMeasure at hfuel ⊢
            simp only [List.length_cons] at hfuel
            omega
          · exact fun e he => hP e (List.mem_cons_of_mem _ he)
          · exact (List.pairwise_cons.mp hsort).2
          · exact fun e1 he1 e2 he2 =>
              hB e1 (List.mem_cons_of_mem _ he1) e2 (List.mem_cons_of_mem _ he2)
          · exact hT
          · exact fun v hv e he => hHD v hv e (List.mem_cons_of_mem _ he)
          · intro v hv hvd y hy
            rcases hHC v hv hvd y hy with hleft | ⟨e, he, hname, hlev⟩ | hthird
            · exact Or.inl hleft
            · rcases List.mem_cons.mp he with h | h
              · refine Or.inr (Or.inr ⟨?_, ?_⟩)
                · rw [← hname, h]
                  exact hTne
                · rw [h] at hlev
                  omega
              · exact Or.inr (Or.inl ⟨e, h, hname, hlev⟩)
            · exact Or.inr (Or.inr hthird)
          · exact ⟨mw, Or.inl ⟨ew, hewrest, hbw, hrw⟩⟩
        · rw [if_neg h2]
          have hdep : current.path.length ≤ D := by
            have hx : ¬(current.path.length > D) := fun hgt => h2 (decide_eq_true hgt)
            omega
          by_cases h3 : (visited.contains current.name) = true
          · rw [if_pos h3]
            have hcv : current.name ∈ visited := by
              rw [contains_eq_mem] at h3
              exact of_decide_eq_true h3
            apply ih rest visited vd
            · unfold bfsMeasure at hfuel ⊢
              simp only [List.length_cons] at hfuel
              omega
            · exact fun e he => hP e (List.mem_cons_of_mem _ he)
            · exact (List.pairwise_cons.mp hsort).2
            · exact fun e1 he1 e2 he2 =>
                hB e1 (List.mem_cons_of_mem _ he1) e2 (List.mem_cons_of_mem _ he2)
            · exact hT
            · exact fun v hv e he => hHD v hv e (List.mem_cons_of_mem _ he)
            · intro v hv hvd y hy
              rcases hHC v hv hvd y hy with hleft | ⟨e, he, hname, hlev⟩ | hthird
              · exact Or.inl hleft
              · rcases List.mem_cons.mp he with h | h
                · refine Or.inl ⟨?_, ?_⟩
                  · rw [← hname, h]
                    exact hcv
                  · have h4 := hHD current.name hcv current
                      (List.mem_cons_self current rest)
                    rw [← hname, h]
                    rw [h] at hlev
                    omega
                · exact Or.inr (Or.inl ⟨e, h, hname, hlev⟩)
              · exact Or.inr (Or.inr hthird)
            · rcases List.mem_cons.mp hew with h | h
              · refine ⟨mw, Or.inr ⟨current.name, hcv, ?_, ?_⟩⟩
                · have h4 := hHD current.name hcv current
                    (List.mem_cons_self current rest)
                  rw [h] at hbw
                  omega
                · rw [h] at hrw
                  exact hrw
              · exact ⟨mw, Or.inl ⟨ew, h, hbw, hrw⟩⟩
          · rw [if_neg h3]
            have hcnv : current.name ∉ visited := by
              rw [contains_eq_mem] at h3
              simpa using h3
            have hplen : 1 ≤ current.path.length :=
              List.length_pos.mpr (hP current (List.mem_cons_self current rest))
            have hnew_mem : ∀ e ∈ (adjacencyList g current.name).filterMap
                (fun nb => if (current.name :: visited).contains nb.1 then none
                  else some (BfsEntry.mk nb.1 (current.path ++ [nb.1])
                    (current.relations ++ [nb.2]))),
                e.name ∈ bfsNbrs g current.name ∧
                e.path = current.path ++ [e.name] ∧
                e.path.length - 1 = current.path.length ∧
                e.name ∉ visited ∧ e.name ≠ current.name := by
              intro e he
              obtain ⟨nb, hnb, hf⟩ := List.mem_filterMap.mp he
              by_cases hc : ((current.name :: visited).contains nb.1) = true
              · rw [if_pos hc] at hf
                exact Option.noConfusion hf
              · rw [if_neg hc] at hf
                injection hf with hf
                subst hf
                have hcm : nb.1 ∉ current.name :: visited := by
                  rw [contains_eq_mem] at hc
                  simpa using hc
                refine ⟨List.mem_map_of_mem Prod.fst hnb, rfl, by simp, ?_, ?_⟩
                · exact fun hx => hcm (List.mem_cons_of_mem _ hx)
                · exact fun hx => hcm (hx ▸ List.mem_cons_self _ _)
            apply ih _ _
              (fun x => if x = current.name then current.path.length - 1 else vd x)
            · by_cases hv0 : current.name ∈ g.entities.map (fun e => e.name)
              · have h3f : visited.contains current.name = false := by
                  simpa using h3
                have hstrict := measure_sub_lt g (g.entities.map (fun e => e.name))
                  visited current.name hv0 h3f
                have hlen_new := List.length_filterMap_le
                  (fun nb : Str × Relation =>
                    if (current.name :: visited).contains nb.1 then none
                    else some (BfsEntry.mk nb.1 (current.path ++ [nb.1])
                      (current.relations ++ [nb.2])))
                  (adjacencyList g current.name)
                unfold bfsMeasure at hfuel ⊢
                simp only [List.length_cons, List.length_append] at hfuel ⊢
                omega
              · have hadj := adjacencyList_nil_of_not_entity g current.name hv0
                have hS := measure_sub_le g (g.entities.map (fun e => e.name))
                  visited current.name
                unfold bfsMeasure at hfuel ⊢
                simp only [List.length_cons, List.length_append] at hfuel ⊢
                rw [hadj]
                simp only [List.filterMap_nil, List.length_nil]
                omega
            · intro e he
              rcases List.mem_append.mp he with he | he
              · exact hP e (List.mem_cons_of_mem _ he)
              · obtain ⟨_, hpath, _, _, _⟩ := hnew_mem e he
                rw [hpath]
                simp
            · rw [List.pairwise_append]
              refine ⟨(List.pairwise_cons.mp hsort).2, ?_, ?_⟩
              · apply pairwise_of_forall_mem
                intro a ha b hb
                obtain ⟨_, _, hla, _, _⟩ := hnew_mem a ha
                obtain ⟨_, _, hlb, _, _⟩ := hnew_mem b hb
                omega
              · intro a ha b hb
                obtain ⟨_, _, hlb, _, _⟩ := hnew_mem b hb
                have hx := hB current (List.mem_cons_self current rest) a
                  (List.mem_cons_of_mem _ ha)
                omega
            · intro e1 he1 e2 he2
              rcases List.mem_append.mp he1 with he1 | he1 <;>
                rcases List.mem_append.mp he2 with he2 | he2
              · exact hB e1 (List.mem_cons_of_mem _ he1) e2
                  (List.mem_cons_of_mem _ he2)
              · obtain ⟨_, _, hl2, _, _⟩ := hnew_mem e2 he2
                have hx := (List.pairwise_cons.mp hsort).1 e1 he1
                omega
              · obtain ⟨_, _, hl1, _, _⟩ := hnew_mem e1 he1
                have hx := hB current (List.mem_cons_self current rest) e2
                  (List.mem_cons_of_mem _ he2)
                omega
              · obtain ⟨_, _, hl1, _, _⟩ := hnew_mem e1 he1
                obtain ⟨_, _, hl2, _, _⟩ := hnew_mem e2 he2
                omega
            · intro hx
              rcases List.mem_cons.mp hx with h | h
              · exact hTne h.symm
              · exact hT h
            · intro v hv e he
              rcases List.mem_cons.mp hv with hv | hv <;>
                rcases List.mem_append.mp he with he | he
              · rw [hv, if_pos rfl]
                exact (List.pairwise_cons.mp hsort).1 e he
              · rw [hv, if_pos rfl]
                obtain ⟨_, _, hl, _, _⟩ := hnew_mem e he
                omega
              · have hne : v ≠ current.name := fun hx => hcnv (hx ▸ hv)
                rw [if_neg hne]
                exact hHD v hv e (List.mem_cons_of_mem _ he)
              · have hne : v ≠ current.name := fun hx => hcnv (hx ▸ hv)
                rw [if_neg hne]
                obtain ⟨_, _, hl, _, _⟩ := hnew_mem e he
                have hx := hHD v hv current (List.mem_cons_self current rest)
                omega
            · intro v hv hvd y hy
              rcases List.mem_cons.mp hv with hveq | hvold
              · rw [hveq] at hy
                obtain ⟨nb, hnb, hfst⟩ := List.mem_map.mp hy
                by_cases hc : ((current.name :: visited).contains nb.1) = true
                · have hcm : nb.1 ∈ current.name :: visited := by
                    rw [contains_eq_mem] at hc
                    exact of_decide_eq_true hc
                  refine Or.inl ⟨?_, ?_⟩
                  · rw [← hfst]
                    exact hcm
                  · rw [hveq, if_pos rfl]
                    rcases List.mem_cons.mp hcm with h | h
                    · rw [← hfst, if_pos h]
                      omega
                    · have hne : nb.1 ≠ current.name := fun hx => hcnv (hx ▸ h)
                      rw [← hfst, if_neg hne]
                      have hx := hHD nb.1 h current (List.mem_cons_self current rest)
                      omega
                · refine Or.inr (Or.inl ⟨BfsEntry.mk nb.1 (current.path ++ [nb.1])
                    (current.relations ++ [nb.2]), ?_, ?_, ?_⟩)
                  · apply List.mem_append_right
                    exact List.mem_filterMap.mpr ⟨nb, hnb, by rw [if_neg hc]⟩
                  · exact hfst
                  · rw [hveq, if_pos rfl]
                    simp only [List.length_append, List.length_cons, List.length_nil]
                    omega
              · have hne : v ≠ current.name := fun hx => hcnv (hx ▸ hvold)
                rw [if_neg hne] at hvd
                rcases hHC v hvold hvd y hy with ⟨hyv, hyd⟩ | ⟨e, he, hname, hlev⟩ | hthird
                · have hyne : y ≠ current.name := fun hx => hcnv (hx ▸ hyv)
                  refine Or.inl ⟨List.mem_cons_of_mem _ hyv, ?_⟩
                  rw [if_neg hyne, if_neg hne]
                  exact hyd
                · rcases List.mem_cons.mp he with h | h
                  · refine Or.inl ⟨?_, ?_⟩
                    · rw [← hname, h]
                      exact List.mem_cons_self _ _
                    · rw [← hname, h, if_pos rfl, if_neg hne]
                      rw [h] at hlev
                      exact hlev
                  · refine Or.inr (Or.inl ⟨e, List.mem_append_left _ h, hname, ?_⟩)
                    rw [if_neg hne]
                    exact hlev
                · refine Or.inr (Or.inr ⟨hthird.1, ?_⟩)
                  rw [if_neg hne]
                  exact hthird.2
            · rcases List.mem_cons.mp hew with h | h
              · refine ⟨mw, Or.inr ⟨current.name, List.mem_cons_self _ _, ?_, ?_⟩⟩
                · rw [if_pos rfl]
                  rw [h] at hbw
                  exact hbw
                · rw [h] at hrw
                  exact hrw
              · exact ⟨mw, Or.inl ⟨ew, List.mem_append_left _ h, hbw, hrw⟩⟩

theorem bfsMeasure_init (g : Graph) (e : BfsEntry) :
    bfsMeasure g [e] [] = bfsFuel g := by
  unfold bfsMeasure bfsFuel
  have hc : ∀ n : Str, (!([] : List Str).contains n) = true := fun n => rfl
  simp [hc]

/-- **C1** (amended): `findPath` is a correct BFS shortest-path search over
the traversal adjacency (the graph whose steps leave an *existing* entity
along a stored relation, read undirectedly — `bfsNbrs`): it returns `null`
when either endpoint is missing; a single-node zero-length path when the
endpoints coincide; when the target is within `maxDepth` traversal steps of
the source, a path whose length is exactly the least `d` with
`B ∈ reachSet g A d`; and `null` when the target is not within `maxDepth`
traversal steps.  (Over raw relations — through dangling endpoint names —
the connectivity premise of the claim does not imply a path is found: see
the counterexample.) -/
theorem C1_findPath_correct (g : Graph) (A B : Str) (D : Nat) :
    (((mapGet g A).isNone || (mapGet g B).isNone) = true →
      findPath g A B D = none) ∧
    ((mapGet g A).isNone = false → A = B →
      findPath g A B D = some ⟨[(mapGet g A).getD defaultEntity], [], 0⟩) ∧
    (∀ d : Nat, (mapGet g A).isNone = false → (mapGet g B).isNone = false →
      A ≠ B → B ∈ reachSet g A d → (∀ m, B ∈ reachSet g A m → d ≤ m) →
      d ≤ D → ∃ res, findPath g A B D = some res ∧ res.length = d) ∧
    ((mapGet g A).isNone = false → (mapGet g B).isNone = false → A ≠ B →
      B ∉ reachSet g A D → findPath g A B D = none) := by
  refine ⟨?_, ?_, ?_, ?_⟩
  · intro h
    unfold findPath
    rw [if_pos h]
  · intro hA hAB
    subst hAB
    unfold findPath
    rw [if_neg (by simp [hA]), if_pos (by simp)]
  · intro d hA hB hAB hreach hmin hdD
    unfold findPath
    rw [if_neg (by simp [hA, hB]), if_neg (by simpa using hAB)]
    obtain ⟨res, heq, hle⟩ := bfsLoop_complete g B D d hdD (bfsFuel g)
      [⟨A, [A], []⟩] [] (fun _ => 0)
      (by rw [bfsMeasure_init])
      (by intro e he; simp at he; subst he; simp)
      (by simp)
      (by intro e1 h1 e2 h2; simp at h1 h2; subst h1; subst h2; omega)
      (List.not_mem_nil B)
      (by intro v hv; exact absurd hv (List.not_mem_nil v))
      (by intro v hv; exact absurd hv (List.not_mem_nil v))
      ⟨d, Or.inl ⟨⟨A, [A], []⟩, by simp, by
        refine ⟨by simp, ?_⟩
        exact reachIn_of_mem_reachSet g A d B hreach⟩⟩
    have hsound := bfsLoop_sound g A B D (bfsFuel g) [⟨A, [A], []⟩] [] res
      (by intro e he; simp at he; subst he
          exact ⟨by simp, by simp [reachSet]⟩)
      (by intro e he; simp at he; subst he; simp)
      heq
    exact ⟨res, heq, Nat.le_antisymm hle (hmin res.length hsound.1)⟩
  · intro hA hB hAB hnreach
    unfold findPath
    rw [if_neg (by simp [hA, hB]), if_neg (by simpa using hAB)]
    cases heq : bfsLoop g B D (bfsFuel g) [⟨A, [A], []⟩] [] with
    | none => rfl
    | some res =>
      exfalso
      have hsound := bfsLoop_sound g A B D (bfsFuel g) [⟨A, [A], []⟩] [] res
        (by intro e he; simp at he; subst he
            exact ⟨by simp, by simp [reachSet]⟩)
        (by intro e he; simp at he; subst he; simp)
        heq
      exact hnreach (reachSet_mono g A hsound.2 B hsound.1)

/-- C1 counterexample: reading the claim's connectivity premise over raw
relations fails.  With entities `a`, `b` and the relations `a→x`, `x→b`
through the dangling name `x` (never created as an entity — the source
never validates endpoints), `a` and `b` are joined by an undirected chain
of two relations, yet `findPath` returns `null`, because the BFS only
follows adjacency entries of names that exist as entities. -/
theorem C1_counterexample :
    findPath ⟨[⟨['a'], ['t'], []⟩, ⟨['b'], ['t'], []⟩],
        [⟨['a'], ['x'], ['r']⟩, ⟨['x'], ['b'], ['r']⟩]⟩ ['a'] ['b'] 10 = none ∧
    RelReach ⟨[⟨['a'], ['t'], []⟩, ⟨['b'], ['t'], []⟩],
        [⟨['a'], ['x'], ['r']⟩, ⟨['x'], ['b'], ['r']⟩]⟩ 2 ['a'] ['b'] := by
  constructor
  · decide
  · exact RelReach.step ⟨⟨['a'], ['x'], ['r']⟩, by simp, Or.inl ⟨rfl, rfl⟩⟩
      (RelReach.step ⟨⟨['x'], ['b'], ['r']⟩, by simp, Or.inl ⟨rfl, rfl⟩⟩
        (RelReach.refl 0 ['b']))

/-- Witness for C1 at a concrete input: on the chain `a—b—c` of existing
entities, `findPath a c` returns a result of length exactly 2. -/
theorem C1_witness :
    ∃ res, findPath ⟨[⟨['a'], ['t'], []⟩, ⟨['b'], ['t'], []⟩, ⟨['c'], ['t'], []⟩],
        [⟨['a'], ['b'], ['r']⟩, ⟨['b'], ['c'], ['r']⟩]⟩ ['a'] ['c'] 10 = some res ∧
      res.length = 2 := by
  refine (C1_findPath_correct
      ⟨[⟨['a'], ['t'], []⟩, ⟨['b'], ['t'], []⟩, ⟨['c'], ['t'], []⟩],
        [⟨['a'], ['b'], ['r']⟩, ⟨['b'], ['c'], ['r']⟩]⟩ ['a'] ['c'] 10).2.2.1 2
    (by decide) (by decide) (by decide) (by decide) ?_ (by decide)
  intro m hm
  by_contra hlt
  push_neg at hlt
  interval_cases m
  · exact absurd hm (by decide)
  · exact absurd hm (by decide)

/-- **C9**: persistence round-trips.  `loadGraph (saveGraph g)` restores any
graph exactly — entity order, relation order and every field — and therefore
`saveGraph (loadGraph (saveGraph g))` is byte-identical to `saveGraph g`. -/
theorem C9_persistence_roundtrip (g : Graph) :
    loadGraph (saveGraph g) = g ∧
    saveGraph (loadGraph (saveGraph g)) = saveGraph g := by
  have h := loadGraph_saveGraph g
  exact ⟨h, by rw [h]⟩

end BetterMemory
